import Mathlib

/-!
Verification development for the thedude deferred-execution engine
(futures, tasks, task lists).  The definitions below are a shallow
embedding of the JavaScript source (`thedude.js`): argument trees are
the closed variant type sanctioned by the design notes (plain value,
future reference, ordered sequence, keyed mapping), task state is
passed explicitly, and fallible operations return `Option` (with
`none` standing for a raised exception).
-/

/-- The four task statuses (`PROCRASTINATING`, `RUNNING`, `CANCELED`, `DONE`). -/
inductive Status where
  | procrastinating
  | running
  | canceled
  | done
deriving DecidableEq, Repr

/-- A key inside an argument tree: an index of an ordered sequence or a
field name of a keyed mapping. -/
inductive Key where
  | idx : Nat → Key
  | fld : String → Key
deriving DecidableEq, Repr

/-- A position in an argument tree, from the root of the task's argument
list down to a node. -/
abbrev TPath := List Key

/-- An argument-tree node: a plain (opaque) value, a reference to a
future by identifier, an ordered sequence, or a keyed mapping.  This is
the closed variant view of the values `searchFutures` traverses. -/
inductive Arg where
  | val : Int → Arg
  | fut : Nat → Arg
  | arr : List Arg → Arg
  | obj : List (String × Arg) → Arg
deriving Repr

/-- Association-list lookup used for the resolved-future environment:
the value of the first binding of an identifier, if any. -/
def findVal : List (Nat × Int) → Nat → Option Int
  | [], _ => none
  | (j, v) :: rest, i => if j = i then some v else findVal rest i

/-- `this.futures.splice(this.futures.indexOf(value), 1)`: remove the
first occurrence of an identifier; when it is absent `indexOf` gives
`-1` and `splice(-1, 1)` removes the last element. -/
def spliceOut : List Nat → Nat → List Nat
  | [], _ => []
  | j :: rest, i => if j = i then rest else
      match spliceOut rest i with
      | r => if rest.contains i then j :: r else (j :: rest).dropLast

mutual
/-- Replace the node at a path inside one argument-tree node
(the effect of the resolution callback's `obj[key] = result`). -/
def setArg : Arg → TPath → Arg → Arg
  | _, [], r => r
  | .arr xs, .idx n :: p, r => .arr (updIdx xs n p r)
  | .obj fs, .fld k :: p, r => .obj (updFld fs k p r)
  | a, _, _ => a

/-- Replace along a path under index `n` of an ordered sequence. -/
def updIdx : List Arg → Nat → TPath → Arg → List Arg
  | [], _, _, _ => []
  | x :: xs, 0, p, r => setArg x p r :: xs
  | x :: xs, n + 1, p, r => x :: updIdx xs n p r

/-- Replace along a path under field `k` of a keyed mapping. -/
def updFld : List (String × Arg) → String → TPath → Arg → List (String × Arg)
  | [], _, _, _ => []
  | (k', x) :: fs, k, p, r =>
      if k' = k then (k', setArg x p r) :: fs else (k', x) :: updFld fs k p r
end

/-- Replace the node at a path of the top-level argument list. -/
def setTop (xs : List Arg) (p : TPath) (r : Arg) : List Arg :=
  match p with
  | .idx n :: p' => updIdx xs n p' r
  | _ => xs

mutual
/-- Replace every future reference bound in the environment by its value. -/
def substArg (σ : List (Nat × Int)) : Arg → Arg
  | .val n => .val n
  | .fut i =>
      match findVal σ i with
      | some v => .val v
      | none => .fut i
  | .arr xs => .arr (substList σ xs)
  | .obj fs => .obj (substFields σ fs)

def substList (σ : List (Nat × Int)) : List Arg → List Arg
  | [] => []
  | x :: xs => substArg σ x :: substList σ xs

def substFields (σ : List (Nat × Int)) : List (String × Arg) → List (String × Arg)
  | [] => []
  | (k, x) :: fs => (k, substArg σ x) :: substFields σ fs
end

/-- Replace every bound future reference of a top-level argument list. -/
def substTop (σ : List (Nat × Int)) (xs : List Arg) : List Arg := substList σ xs

mutual
/-- The future occurrences of one node, with node-relative paths, in the
order `searchFutures` visits them. -/
def futsArg : Arg → List (Nat × TPath)
  | .val _ => []
  | .fut i => [(i, [])]
  | .arr xs => futsList 0 xs
  | .obj fs => futsFields fs

def futsList (j : Nat) : List Arg → List (Nat × TPath)
  | [] => []
  | x :: xs => (futsArg x).map (fun q => (q.1, Key.idx j :: q.2)) ++ futsList (j + 1) xs

def futsFields : List (String × Arg) → List (Nat × TPath)
  | [] => []
  | (k, x) :: fs => (futsArg x).map (fun q => (q.1, Key.fld k :: q.2)) ++ futsFields fs
end

/-- The future occurrences of a task's argument list (root paths),
in traversal order. -/
def futsTop (xs : List Arg) : List (Nat × TPath) := futsList 0 xs

/-- The identifiers of the futures embedded in an argument list,
in traversal order. -/
def futIds (xs : List Arg) : List Nat := (futsTop xs).map Prod.fst

/-- The value the task's function returns (the function is opaque: it
returns the same result whatever the arguments; `none` is `undefined`). -/
structure TaskCfg where
  funcRet : Option Int

/-- The mutable state of one `Task`, together with an event log: `fenv`
is the set of already-resolved futures (the `done`/value state of the
future objects this task can see), `invocations` records each call of
the task's function with the arguments passed, and `completions`
records each call of the `run` completion callback. -/
structure TaskState where
  status : Status
  called : Bool
  args : List Arg
  futures : List Nat
  regs : List (Nat × TPath)
  fenv : List (Nat × Int)
  invocations : List (List Arg)
  completions : List (Option String × Option Int)
deriving Repr

/-- `new Task(func, args)`: status `procrastinating`, `called = false`,
empty dependency set; the argument tree is stored as given. -/
def initTask (a₀ : List Arg) (env : List (Nat × Int)) : TaskState :=
  { status := .procrastinating, called := false, args := a₀,
    futures := [], regs := [], fenv := env,
    invocations := [], completions := [] }

/-- `Task.applyMaybe` for data arguments: no-op when canceled or when
futures are outstanding; otherwise transition to `running`, invoke the
function with the current arguments, then transition to `done` and fire
the completion callback.  (The `typeof lastArg === 'function'` test of
the source is `false` for every data argument of this fragment; the
asynchronous branch is modelled separately below.) -/
def applyMaybe (cfg : TaskCfg) (st : TaskState) : TaskState :=
  if st.status = .canceled ∨ st.futures ≠ [] then st
  else
    { st with status := .done,
              invocations := st.invocations ++ [st.args],
              completions := st.completions ++ [(none, cfg.funcRet)] }

/-- The handling of one future occurrence during `searchFutures`: push
it on the dependency list and add a resolution callback; a future that
is already done fires the callback immediately (substitute, splice out,
`applyMaybe`), a pending one records the registration. -/
def handleOcc (cfg : TaskCfg) (st : TaskState) (q : Nat × TPath) : TaskState :=
  let st1 := { st with futures := st.futures ++ [q.1] }
  match findVal st1.fenv q.1 with
  | some v =>
      applyMaybe cfg
        { st1 with args := setTop st1.args q.2 (.val v),
                   futures := spliceOut st1.futures q.1 }
  | none => { st1 with regs := st1.regs ++ [(q.1, q.2)] }

mutual
/-- `Task.searchFutures` on one node at a root path. -/
def scanArg (cfg : TaskCfg) (st : TaskState) (p : TPath) : Arg → TaskState
  | .val _ => st
  | .fut i => handleOcc cfg st (i, p)
  | .arr xs => scanList cfg st p 0 xs
  | .obj fs => scanFields cfg st p fs

def scanList (cfg : TaskCfg) (st : TaskState) (p : TPath) (j : Nat) :
    List Arg → TaskState
  | [] => st
  | x :: xs => scanList cfg (scanArg cfg st (p ++ [Key.idx j]) x) p (j + 1) xs

def scanFields (cfg : TaskCfg) (st : TaskState) (p : TPath) :
    List (String × Arg) → TaskState
  | [] => st
  | (k, x) :: fs => scanFields cfg (scanArg cfg st (p ++ [Key.fld k]) x) p fs
end

/-- `this.searchFutures(this.args, callback)`. -/
def searchFutures (cfg : TaskCfg) (st : TaskState) : TaskState :=
  scanList cfg st [] 0 st.args

/-- `Task.run`: report once when called twice or on a canceled task;
otherwise set `called`, scan the arguments, and apply when the scan has
not already executed. -/
def runTask (cfg : TaskCfg) (st : TaskState) : TaskState :=
  if st.called then
    { st with completions := st.completions ++ [(some "cannot run a task twice", none)] }
  else if st.status = .canceled then
    { st with completions := st.completions ++ [(some "cannot run a canceled task", none)] }
  else
    let st1 := searchFutures cfg { st with called := true }
    if st1.status = .procrastinating then applyMaybe cfg st1 else st1

/-- `Task.cancel`: `none` models the raised error on a task that is
already canceled; otherwise the boolean result and the new state. -/
def cancelTask (st : TaskState) : Option (Bool × TaskState) :=
  if st.status = .canceled then none
  else if st.status ≠ .procrastinating then some (false, st)
  else some (true, { st with status := .canceled })

/-- `future.set` as seen by one task: throws (`none`) when the future is
already done; otherwise records the value and fires, in registration
order, the resolution callbacks this task registered on that future. -/
def fireRegs (cfg : TaskCfg) (i : Nat) (v : Int) :
    List (Nat × TPath) → TaskState → TaskState
  | [], st => st
  | (j, p) :: rs, st =>
      if j = i then
        fireRegs cfg i v rs
          (applyMaybe cfg
            { st with args := setTop st.args p (.val v),
                      futures := spliceOut st.futures i })
      else fireRegs cfg i v rs st

def futureSet (cfg : TaskCfg) (st : TaskState) (i : Nat) (v : Int) :
    Option TaskState :=
  if (findVal st.fenv i).isSome then none
  else some (fireRegs cfg i v st.regs { st with fenv := st.fenv ++ [(i, v)] })

/-- A sequence of `future.set` events delivered to the task (a set that
throws leaves the task untouched). -/
def applySets (cfg : TaskCfg) : TaskState → List (Nat × Int) → TaskState
  | st, [] => st
  | st, (i, v) :: rest => applySets cfg ((futureSet cfg st i v).getD st) rest

/-! ## The Future write-once cell (`class Future`) -/

/-- The state of one `Future`: `done`, the stored value captured by the
replay closure (`_call`), the pending callback chain (`_callback`,
FIFO; callbacks are named by identifiers), and a log of every callback
invocation `(callback, value)` in order. -/
structure FutureState where
  done : Bool
  stored : Option Int
  pending : List Nat
  delivered : List (Nat × Int)
deriving DecidableEq, Repr

/-- `new Future()`. -/
def futureInit : FutureState :=
  { done := false, stored := none, pending := [], delivered := [] }

/-- `Future.set(value)`: `none` models the raised
`future is already done` error; otherwise mark done, invoke the pending
chain in registration order with the value, and arm the replay
operation with the stored value. -/
def fset (f : FutureState) (v : Int) : Option FutureState :=
  if f.done then none
  else some { done := true, stored := some v, pending := [],
              delivered := f.delivered ++ f.pending.map (fun c => (c, v)) }

/-- A `set` call whose raised error is caught by the caller: the future
itself is left untouched. -/
def trySet (f : FutureState) (v : Int) : FutureState := (fset f v).getD f

/-- A sequence of `set` attempts. -/
def setAll (f : FutureState) : List Int → FutureState :=
  List.foldl trySet f

/-- `Future.addCallback(callback)`: invoke immediately with the stored
value when done (the `done ∧ stored = none` branch cannot arise from
`futureInit` and the operations above), append to the chain otherwise. -/
def faddCallback (f : FutureState) (c : Nat) : FutureState :=
  if f.done then
    match f.stored with
    | some v => { f with delivered := f.delivered ++ [(c, v)] }
    | none => f
  else { f with pending := f.pending ++ [c] }

/-! ## `applyMaybe` with a function-valued last argument
(the asynchronous-call convention, source lines 827-860) -/

/-- One synchronous action of the user function's body: invoke the
value at the declared-last parameter position (which `applyMaybe` has
replaced by the wrapping callback) with some result values, or throw. -/
inductive BodyAct where
  | invokeCb : List Int → BodyAct
  | raiseErr : String → BodyAct
deriving DecidableEq, Repr

/-- The behavior of an asynchronous user function: its declared
parameter count, the synchronous actions of its body in order, and its
return value (`none` is `undefined`). -/
structure AsyncFunc where
  arity : Nat
  body : List BodyAct
  ret : Option Int
deriving DecidableEq, Repr

/-- A task configuration for the asynchronous convention: the function,
plus the behavior of the original function value found at the
declared-last argument position (`some e` - it always throws `e`;
`none` - it always returns normally). -/
structure AMCfg where
  func : AsyncFunc
  lastArgThrows : Option String
deriving DecidableEq, Repr

/-- The state `applyMaybe` manipulates: the task status, the closed-over
`result` variable, a log of the invocations of the original
completion-callback argument, a log of the calls of the `run` caller's
completion callback, and any exception that escaped uncaught. -/
structure AMState where
  status : Status
  result : Option Int
  cbCalls : List (List Int)
  completions : List (Option String × Option Int)
  uncaught : Option String
deriving DecidableEq, Repr

/-- The state at the moment `applyMaybe` is entered. -/
def amInit : AMState :=
  { status := .procrastinating, result := none, cbCalls := [],
    completions := [], uncaught := none }

/-- `cback`: transition to done and fire the run completion callback
with the error and the current value of `result`. -/
def cback (st : AMState) (err : Option String) : AMState :=
  { st with status := .done, completions := st.completions ++ [(err, st.result)] }

/-- The wrapping callback `applyMaybe` substitutes at the declared-last
argument position: forward to the original callback, catching what it
throws, then `cback` with the caught error or null. -/
def wrappedCb (cfg : AMCfg) (st : AMState) (cargs : List Int) : AMState :=
  let st1 := { st with cbCalls := st.cbCalls ++ [cargs] }
  match cfg.lastArgThrows with
  | some e => cback st1 (some e)
  | none => cback st1 none

/-- `exec(args)`: run the body's synchronous actions in order; a throw
aborts the body and escapes uncaught (there is no try/catch around
`exec`), so `result` is never assigned; a body that finishes assigns
the function's return value to `result`. -/
def runBody (cfg : AMCfg) : List BodyAct → AMState → AMState
  | [], st => { st with result := cfg.func.ret }
  | .invokeCb cargs :: rest, st => runBody cfg rest (wrappedCb cfg st cargs)
  | .raiseErr e :: _, st => { st with uncaught := some e }

/-- `applyMaybe` when `typeof lastArg === 'function'`: no-op when
canceled or when futures are outstanding; otherwise transition to
`running`, replace the last argument position by the wrapping callback
and `exec` - the final `cback(null)` of the synchronous branch is not
reached (the source returns right after `exec`). -/
def applyMaybeAsync (cfg : AMCfg) (canceled : Bool) (futuresLeft : Bool)
    (st : AMState) : AMState :=
  if canceled ∨ futuresLeft then st
  else runBody cfg cfg.func.body { st with status := .running }

/-- An asynchronous invocation of the wrapping callback, delivered after
the function's body has returned. -/
def laterCb (cfg : AMCfg) (st : AMState) (cargs : List Int) : AMState :=
  wrappedCb cfg st cargs

/-- The behavior of a synchronous user function (declared-last argument
position not a function): it throws, or returns a value. -/
structure SyncFunc where
  raises : Option String
  ret : Option Int
deriving DecidableEq, Repr

/-- `applyMaybe` when the last argument is not a function: `exec(args)`
then `cback(null)`; a throw inside the body escapes uncaught and
`cback` is never reached. -/
def applyMaybeSync (cfg : SyncFunc) (canceled : Bool) (futuresLeft : Bool)
    (st : AMState) : AMState :=
  if canceled ∨ futuresLeft then st
  else
    let st1 := { st with status := Status.running }
    match cfg.raises with
    | some e => { st1 with uncaught := some e }
    | none => cback { st1 with result := cfg.ret } none

/-! ## The TaskList scheduler (`class TaskList`, source lines 941-974) -/

/-- What one task of a list does when its `run` is invoked: complete
synchronously with an error and a result, stay pending (an asynchronous
or future-blocked task), or throw synchronously out of `run` (a
function body that raises). -/
inductive TBeh where
  | completes : Option String → Option Int → TBeh
  | pending : TBeh
  | raises : String → TBeh
deriving DecidableEq, Repr

/-- A task as the list scheduler sees it: an identity, a status, and a
run behavior. -/
structure TItem where
  tid : Nat
  status : Status
  beh : TBeh
deriving DecidableEq, Repr

/-- `removeTask`: `tasks.splice(tasks.indexOf(task), 1)` - remove the
first task with this identity; when absent, `splice(-1, 1)` removes the
last element. -/
def removeItem : List TItem → Nat → List TItem
  | [], _ => []
  | t :: rest, i =>
      if t.tid = i then rest
      else if (rest.map TItem.tid).contains i then t :: removeItem rest i
      else (t :: rest).dropLast

/-- The observable outcome of `TaskList.run`: the live sequence, the
accumulated `{task, err, result}` triples, the per-task
`changesCallback` invocations, the `doneCallback` invocations (each
with the result list it received), and any exception that escaped the
iteration. -/
structure ListRun where
  live : List TItem
  results : List (Nat × Option String × Option Int)
  changes : List (Option String × Option Int × Nat)
  doneCalls : List (List (Nat × Option String × Option Int))
  uncaught : Option String
deriving DecidableEq, Repr

/-- The `forEach` over the snapshot: skip and remove canceled tasks;
run the others - a synchronous completion pushes the result triple,
fires the changes callback, removes the task, and fires the done
callback when the live sequence has emptied; a pending task leaves the
state as is; a throwing `run` aborts the iteration. -/
def listRunGo : ListRun → List TItem → ListRun
  | st, [] => st
  | st, t :: rest =>
      if t.status = .canceled then
        listRunGo { st with live := removeItem st.live t.tid } rest
      else
        match t.beh with
        | .completes err res =>
            let results := st.results ++ [(t.tid, err, res)]
            let changes := st.changes ++ [(err, res, t.tid)]
            let live := removeItem st.live t.tid
            listRunGo
              { st with results := results, changes := changes, live := live,
                        doneCalls :=
                          if live.isEmpty then st.doneCalls ++ [results]
                          else st.doneCalls }
              rest
        | .pending => listRunGo st rest
        | .raises e => { st with uncaught := some e }

/-- `TaskList.run`: an empty sequence fires the done callback with `[]`
immediately; otherwise iterate over a snapshot of the sequence. -/
def listRun (tasks : List TItem) : ListRun :=
  if tasks.isEmpty then
    { live := tasks, results := [], changes := [], doneCalls := [[]],
      uncaught := none }
  else
    listRunGo
      { live := tasks, results := [], changes := [], doneCalls := [],
        uncaught := none }
      tasks

/-! ## Notes, deep copies and mutation (`Task.note`, `Task.info`)

Notes are JavaScript values living on a heap of objects; `note` and
`info` deep-copy via `JSON.parse(JSON.stringify(...))`.  A heap is a
list of objects (the address is the index), a value is a primitive or a
reference, and a `JTree` is the pure JSON tree a serialization reads. -/

/-- A JavaScript runtime value: a primitive or a reference to a heap
object. -/
inductive JVal where
  | num : Int → JVal
  | str : String → JVal
  | ref : Nat → JVal
deriving DecidableEq, Repr

/-- A heap object: its fields in property order. -/
abbrev JObj := List (String × JVal)

/-- The heap: object number `a` lives at index `a`. -/
abbrev Heap := List JObj

/-- A pure JSON tree (what `JSON.stringify` produces). -/
inductive JTree where
  | num : Int → JTree
  | str : String → JTree
  | obj : List (String × JTree) → JTree
deriving Repr

mutual
/-- `JSON.stringify`: read the pure tree under a value.  The fuel bounds
the reference depth; a cyclic structure exhausts it and yields `none`
(stringify throws on cycles). -/
def readVal (h : Heap) : Nat → JVal → Option JTree
  | _, .num n => some (.num n)
  | _, .str s => some (.str s)
  | 0, .ref _ => none
  | fuel + 1, .ref a =>
      (h[a]?).bind fun fs => (readFields h fuel fs).map JTree.obj

def readFields (h : Heap) : Nat → JObj → Option (List (String × JTree))
  | _, [] => some []
  | fuel, (k, v) :: fs =>
      (readVal h fuel v).bind fun t =>
        (readFields h fuel fs).map fun ts => (k, t) :: ts
end

mutual
/-- The addresses a value can reach by following references (up to the
fuel). -/
def reachVal (h : Heap) : Nat → JVal → List Nat
  | _, .num _ => []
  | _, .str _ => []
  | 0, .ref a => [a]
  | fuel + 1, .ref a =>
      a :: (h[a]?).elim [] (fun fs => reachFields h fuel fs)

def reachFields (h : Heap) : Nat → JObj → List Nat
  | _, [] => []
  | fuel, (_, v) :: fs => reachVal h fuel v ++ reachFields h fuel fs
end

/-- `obj[k] = v` on an object's field list: overwrite the first binding
of the key in place, append a fresh key at the end. -/
def setFieldV : JObj → String → JVal → JObj
  | [], k, v => [(k, v)]
  | (k', w) :: fs, k, v =>
      if k' = k then (k, v) :: fs else (k', w) :: setFieldV fs k v

/-- A single field assignment through a reference: mutate the object at
an address (no-op on an invalid address). -/
def heapSet (h : Heap) (a : Nat) (k : String) (v : JVal) : Heap :=
  match h[a]? with
  | some fs => h.set a (setFieldV fs k v)
  | none => h

/-- The same overwrite-or-append on pure JSON trees. -/
def setFieldT : List (String × JTree) → String → JTree → List (String × JTree)
  | [], k, t => [(k, t)]
  | (k', u) :: fs, k, t =>
      if k' = k then (k, t) :: fs else (k', u) :: setFieldT fs k t

/-- `Object.assign(target, source)` on pure JSON trees: copy the
source's fields into the target in order, overwriting on key
collision. -/
def mergeFields (tgt src : List (String × JTree)) : List (String × JTree) :=
  src.foldl (fun acc kt => setFieldT acc kt.1 kt.2) tgt

mutual
/-- `JSON.parse`: materialize a pure tree as freshly allocated objects;
returns the extended heap and the value of the root. -/
def allocTree (h : Heap) : JTree → Heap × JVal
  | .num n => (h, .num n)
  | .str s => (h, .str s)
  | .obj ts =>
      let r := allocFields h ts
      (r.1 ++ [r.2], .ref r.1.length)

def allocFields (h : Heap) : List (String × JTree) → Heap × JObj
  | [] => (h, [])
  | (k, t) :: ts =>
      let r := allocTree h t
      let r' := allocFields r.1 ts
      (r'.1, (k, r.2) :: r'.2)
end

mutual
/-- The reference depth of a pure tree (fuel enough to read a fresh copy
of it back). -/
def depthT : JTree → Nat
  | .num _ => 0
  | .str _ => 0
  | .obj ts => depthFs ts + 1

def depthFs : List (String × JTree) → Nat
  | [] => 0
  | (_, t) :: ts => max (depthT t) (depthFs ts)
end

/-- `Object.assign(target, src)` on the heap: assign the source fields
one by one, in property order, through the target reference. -/
def assignFields (h : Heap) (tgt : Nat) : List (String × JVal) → Heap
  | [] => h
  | (k, v) :: fs => assignFields (heapSet h tgt k v) tgt fs

/-- `Task.note(notes)`:
`Object.assign(this.notes, JSON.parse(JSON.stringify(notes)))` - the
stored notes object lives at address `na`; the input is serialized
(failing on cycles or a non-object input), materialized fresh, and its
root's fields are assigned into the stored notes object. -/
def noteOp (h : Heap) (fuel : Nat) (na : Nat) (input : JVal) : Option Heap :=
  match readVal h fuel input with
  | some t =>
      let r := allocTree h t
      match r.2 with
      | .ref a =>
          match r.1[a]? with
          | some fvs => some (assignFields r.1 na fvs)
          | none => none
      | _ => none
  | none => none

/-- The notes object `Task.info()` returns:
`JSON.parse(JSON.stringify(this.notes))` - a fresh deep copy, together
with the heap extended by the copy. -/
def infoNotes (h : Heap) (fuel : Nat) (na : Nat) : Option (Heap × JVal) :=
  match readVal h fuel (.ref na) with
  | some t => some (allocTree h t)
  | none => none

/-! ## Identifier lists and well-formed trees -/

/-- The future identifiers of one node, in traversal order. -/
def idsArg (a : Arg) : List Nat := (futsArg a).map Prod.fst

/-- The future identifiers of a sequence of nodes, in traversal
order. -/
def idsList : List Arg → List Nat
  | [] => []
  | x :: xs => idsArg x ++ idsList xs

/-- The future identifiers of a mapping's fields, in traversal
order. -/
def idsFields : List (String × Arg) → List Nat
  | [] => []
  | (_, x) :: fs => idsArg x ++ idsFields fs

mutual
/-- A well-formed argument tree: every keyed mapping has distinct field
keys (as a JavaScript object does). -/
def wfArg : Arg → Prop
  | .val _ => True
  | .fut _ => True
  | .arr xs => wfList xs
  | .obj fs => (fs.map Prod.fst).Nodup ∧ wfFields fs

def wfList : List Arg → Prop
  | [] => True
  | x :: xs => wfArg x ∧ wfList xs

def wfFields : List (String × Arg) → Prop
  | [] => True
  | (_, x) :: fs => wfArg x ∧ wfFields fs
end

/-- The state of a task that has been run while all its embedded
futures were pending, after the resolutions `σ` (in that order) have
been delivered to it and before the last one: values substituted at
resolved positions, the unresolved identifiers still outstanding, all
registrations in place. -/
def midState (a₀ : List Arg) (env σ : List (Nat × Int)) : TaskState :=
  { status := .procrastinating, called := true,
    args := substTop σ a₀,
    futures := (futIds a₀).filter (fun j => (findVal σ j).isNone),
    regs := futsTop a₀, fenv := env ++ σ,
    invocations := [], completions := [] }

/-- The state of such a task after the last resolution: the function
has been invoked exactly once with the fully substituted tree, and the
task has completed. -/
def doneState (cfg : TaskCfg) (a₀ : List Arg) (env σ : List (Nat × Int)) :
    TaskState :=
  { status := .done, called := true,
    args := substTop σ a₀, futures := [], regs := futsTop a₀,
    fenv := env ++ σ,
    invocations := [substTop σ a₀],
    completions := [(none, cfg.funcRet)] }

/-! ## General lemmas: the scan as a fold over future occurrences -/

/-- Member-wise induction for argument trees. -/
def Arg.indOn (motive : Arg → Prop)
    (hval : ∀ n, motive (.val n))
    (hfut : ∀ i, motive (.fut i))
    (harr : ∀ xs, (∀ x ∈ xs, motive x) → motive (.arr xs))
    (hobj : ∀ fs, (∀ kx ∈ fs, motive kx.2) → motive (.obj fs)) :
    ∀ a, motive a
  | .val n => hval n
  | .fut i => hfut i
  | .arr xs => harr xs fun x hx =>
      Arg.indOn motive hval hfut harr hobj x
  | .obj fs => hobj fs fun kx hkx =>
      Arg.indOn motive hval hfut harr hobj kx.2
termination_by a => sizeOf a
decreasing_by
  · have := List.sizeOf_lt_of_mem hx
    simp only [Arg.arr.sizeOf_spec]
    omega
  · have h1 := List.sizeOf_lt_of_mem hkx
    rcases kx with ⟨k, x⟩
    simp only [Arg.obj.sizeOf_spec, Prod.mk.sizeOf_spec] at *
    omega

/-- Prefix a root path onto a node-relative occurrence. -/
def occWithin (p : TPath) (q : Nat × TPath) : Nat × TPath := (q.1, p ++ q.2)

/-- Member-wise induction for pure JSON trees. -/
def JTree.indOn (motive : JTree → Prop)
    (hnum : ∀ n, motive (.num n))
    (hstr : ∀ s, motive (.str s))
    (hobj : ∀ ts, (∀ kt ∈ ts, motive kt.2) → motive (.obj ts)) :
    ∀ t, motive t
  | .num n => hnum n
  | .str s => hstr s
  | .obj ts => hobj ts fun kt hkt =>
      JTree.indOn motive hnum hstr hobj kt.2
termination_by t => sizeOf t
decreasing_by
  have h1 := List.sizeOf_lt_of_mem hkt
  rcases kt with ⟨k, t'⟩
  simp only [JTree.obj.sizeOf_spec, Prod.mk.sizeOf_spec] at *
  omega

theorem occWithin_nil : occWithin [] = id := by
  funext q; simp [occWithin]

theorem occWithin_cons (p : TPath) (k : Key) (q : Nat × TPath) :
    occWithin p (q.1, k :: q.2) = occWithin (p ++ [k]) q := by
  simp [occWithin]

theorem scanList_eq_fold_of (cfg : TaskCfg) (xs : List Arg)
    (H : ∀ x ∈ xs, ∀ st p, scanArg cfg st p x =
      List.foldl (handleOcc cfg) st ((futsArg x).map (occWithin p))) :
    ∀ st p j, scanList cfg st p j xs =
      List.foldl (handleOcc cfg) st ((futsList j xs).map (occWithin p)) := by
  induction xs with
  | nil => intro st p j; simp [scanList, futsList]
  | cons x xs ih =>
      intro st p j
      have hx := H x (by simp)
      have hxs : ∀ x' ∈ xs, ∀ st p, scanArg cfg st p x' =
          List.foldl (handleOcc cfg) st ((futsArg x').map (occWithin p)) :=
        fun x' hx' => H x' (by simp [hx'])
      rw [scanList, futsList, List.map_append, List.foldl_append, List.map_map]
      have hcomp :
          (occWithin p ∘ fun q : Nat × TPath => (q.1, Key.idx j :: q.2)) =
          occWithin (p ++ [Key.idx j]) := by
        funext q; simp [occWithin]
      rw [hcomp, ← hx st (p ++ [Key.idx j]), ih hxs]

theorem scanFields_eq_fold_of (cfg : TaskCfg) (fs : List (String × Arg))
    (H : ∀ kx ∈ fs, ∀ st p, scanArg cfg st p kx.2 =
      List.foldl (handleOcc cfg) st ((futsArg kx.2).map (occWithin p))) :
    ∀ st p, scanFields cfg st p fs =
      List.foldl (handleOcc cfg) st ((futsFields fs).map (occWithin p)) := by
  induction fs with
  | nil => intro st p; simp [scanFields, futsFields]
  | cons kx fs ih =>
      intro st p
      rcases kx with ⟨k, x⟩
      have hx := H (k, x) (by simp)
      have hfs : ∀ kx' ∈ fs, ∀ st p, scanArg cfg st p kx'.2 =
          List.foldl (handleOcc cfg) st ((futsArg kx'.2).map (occWithin p)) :=
        fun kx' hkx' => H kx' (by simp [hkx'])
      rw [scanFields, futsFields, List.map_append, List.foldl_append, List.map_map]
      have hcomp :
          (occWithin p ∘ fun q : Nat × TPath => (q.1, Key.fld k :: q.2)) =
          occWithin (p ++ [Key.fld k]) := by
        funext q; simp [occWithin]
      rw [hcomp, ← hx st (p ++ [Key.fld k]), ih hfs]

/-- `searchFutures` on one node is the fold of the occurrence handler
over the node's future occurrences, in traversal order. -/
theorem scanArg_eq_fold (cfg : TaskCfg) (a : Arg) :
    ∀ st p, scanArg cfg st p a =
      List.foldl (handleOcc cfg) st ((futsArg a).map (occWithin p)) := by
  induction a using Arg.indOn with
  | hval n => intro st p; simp [scanArg, futsArg]
  | hfut i => intro st p; simp [scanArg, futsArg, occWithin]
  | harr xs ih =>
      intro st p
      rw [scanArg, futsArg]
      exact scanList_eq_fold_of cfg xs ih st p 0
  | hobj fs ih =>
      intro st p
      rw [scanArg, futsArg]
      exact scanFields_eq_fold_of cfg fs ih st p

/-- `searchFutures` is the fold of the occurrence handler over the
argument list's future occurrences. -/
theorem searchFutures_eq_fold (cfg : TaskCfg) (st : TaskState) :
    searchFutures cfg st =
      List.foldl (handleOcc cfg) st (futsTop st.args) := by
  have h := scanList_eq_fold_of cfg st.args
    (fun x _ => scanArg_eq_fold cfg x) st [] 0
  rw [searchFutures, h, futsTop, occWithin_nil, List.map_id]

/-- Scanning occurrences of futures that are all still pending only
records them: each is pushed on the dependency list and registered. -/
theorem foldl_handleOcc_pending (cfg : TaskCfg) (occs : List (Nat × TPath)) :
    ∀ st : TaskState, (∀ q ∈ occs, findVal st.fenv q.1 = none) →
      List.foldl (handleOcc cfg) st occs =
        { st with futures := st.futures ++ occs.map Prod.fst,
                  regs := st.regs ++ occs } := by
  induction occs with
  | nil => intro st _; simp
  | cons q occs ih =>
      intro st hq
      have h1 : findVal st.fenv q.1 = none := hq q (by simp)
      rw [List.foldl_cons]
      have h2 : handleOcc cfg st q =
          { st with futures := st.futures ++ [q.1], regs := st.regs ++ [q] } := by
        simp [handleOcc, h1]
      rw [h2, ih { st with futures := st.futures ++ [q.1], regs := st.regs ++ [q] }
        (fun q' hq' => hq q' (by simp [hq']))]
      simp

/-- `run` on a fresh task none of whose embedded futures is already
resolved: the scan populates the dependency set and the registrations;
with at least one future the task stays procrastinating. -/
theorem runTask_pending (cfg : TaskCfg) (a₀ : List Arg) (env : List (Nat × Int))
    (hp : ∀ q ∈ futsTop a₀, findVal env q.1 = none)
    (hne : futIds a₀ ≠ []) :
    runTask cfg (initTask a₀ env) =
      { status := .procrastinating, called := true, args := a₀,
        futures := futIds a₀, regs := futsTop a₀, fenv := env,
        invocations := [], completions := [] } := by
  have hS : searchFutures cfg
      { status := .procrastinating, called := true, args := a₀,
        futures := [], regs := [], fenv := env,
        invocations := [], completions := [] } =
      { status := .procrastinating, called := true, args := a₀,
        futures := futIds a₀, regs := futsTop a₀, fenv := env,
        invocations := [], completions := [] } := by
    rw [searchFutures_eq_fold]
    show List.foldl (handleOcc cfg) _ (futsTop a₀) = _
    rw [foldl_handleOcc_pending cfg (futsTop a₀) _ hp]
    simp [futIds]
  rw [runTask]
  simp only [initTask, Bool.false_eq_true, if_false, reduceCtorEq, ite_false]
  rw [hS]
  rw [if_pos rfl, applyMaybe]
  rw [if_pos (Or.inr hne)]

/-- `run` on a fresh task whose argument tree embeds no future at all:
the function is invoked synchronously, once, with the arguments as
given, and the task completes. -/
theorem runTask_nofuture (cfg : TaskCfg) (a₀ : List Arg)
    (env : List (Nat × Int)) (hno : futsTop a₀ = []) :
    runTask cfg (initTask a₀ env) =
      { status := .done, called := true, args := a₀,
        futures := [], regs := [], fenv := env,
        invocations := [a₀], completions := [(none, cfg.funcRet)] } := by
  have hS : searchFutures cfg
      { status := .procrastinating, called := true, args := a₀,
        futures := [], regs := [], fenv := env,
        invocations := [], completions := [] } =
      { status := .procrastinating, called := true, args := a₀,
        futures := [], regs := [], fenv := env,
        invocations := [], completions := [] } := by
    rw [searchFutures_eq_fold]
    show List.foldl (handleOcc cfg) _ (futsTop a₀) = _
    rw [hno, List.foldl_nil]
  rw [runTask]
  simp only [initTask, Bool.false_eq_true, if_false, reduceCtorEq, ite_false]
  rw [hS]
  rw [if_pos rfl, applyMaybe]
  simp

/-- `cancel` raises on a task already canceled. -/
theorem cancelTask_of_canceled (st : TaskState) (h : st.status = .canceled) :
    cancelTask st = none := by
  simp [cancelTask, h]

/-- `cancel` succeeds on a procrastinating task. -/
theorem cancelTask_of_procrastinating (st : TaskState)
    (h : st.status = .procrastinating) :
    cancelTask st = some (true, { st with status := .canceled }) := by
  simp [cancelTask, h]

/-- `cancel` fails without a transition once execution has begun. -/
theorem cancelTask_of_started (st : TaskState)
    (h : st.status = .running ∨ st.status = .done) :
    cancelTask st = some (false, st) := by
  rcases h with h | h <;> simp [cancelTask, h]

/-! ## Claims C7, C8, C6, C3 -/

/-- C7: `cancel` on a `Procrastinating` task transitions it to
`Canceled` and returns success; on a `Running` or `Done` task it
returns failure with the status unchanged; on an already-`Canceled`
task it raises.  The three outcomes are exhaustive and determined
solely by the task's status. -/
theorem c7_cancel_by_status (st : TaskState) :
    (st.status = .canceled → cancelTask st = none) ∧
    (st.status = .procrastinating →
      cancelTask st = some (true, { st with status := .canceled })) ∧
    (st.status = .running ∨ st.status = .done →
      cancelTask st = some (false, st)) :=
  ⟨cancelTask_of_canceled st, cancelTask_of_procrastinating st,
    cancelTask_of_started st⟩

/-- Witness for C7 at concrete tasks in each status. -/
theorem c7_cancel_by_status_witness :
    cancelTask (initTask [Arg.val 1] []) =
      some (true, { initTask [Arg.val 1] [] with status := .canceled }) ∧
    cancelTask { initTask [Arg.val 1] [] with status := .canceled } = none ∧
    cancelTask { initTask [Arg.val 1] [] with status := .done } =
      some (false, { initTask [Arg.val 1] [] with status := .done }) := by
  refine ⟨(c7_cancel_by_status _).2.1 rfl, (c7_cancel_by_status _).1 rfl,
    (c7_cancel_by_status _).2.2 (Or.inr rfl)⟩

/-- C8: on an unresolved future the first `set(v)` succeeds and marks
it done; every subsequent `set` fails with the raised already-resolved
error; the stored value and the value delivered to callbacks never
change, however many further `set` calls are attempted. -/
theorem c8_future_set_once (f : FutureState) (v : Int) (h : f.done = false) :
    ∃ f', fset f v = some f' ∧ f'.done = true ∧ f'.stored = some v ∧
      ∀ vs : List Int,
        setAll f' vs = f' ∧
        (∀ w, fset (setAll f' vs) w = none) ∧
        ∀ c, (faddCallback (setAll f' vs) c).delivered =
          f'.delivered ++ [(c, v)] := by
  refine ⟨{ done := true, stored := some v, pending := [],
            delivered := f.delivered ++ f.pending.map (fun c => (c, v)) },
    by simp [fset, h], rfl, rfl, fun vs => ?_⟩
  have hall : setAll
      { done := true, stored := some v, pending := [],
        delivered := f.delivered ++ f.pending.map (fun c => (c, v)) } vs =
      { done := true, stored := some v, pending := [],
        delivered := f.delivered ++ f.pending.map (fun c => (c, v)) } := by
    induction vs with
    | nil => rfl
    | cons w vs ih => simpa [setAll, List.foldl_cons, trySet, fset] using ih
  refine ⟨hall, fun w => by simp [hall, fset], fun c => by simp [hall, faddCallback]⟩

/-- Witness for C8 at a fresh future and value 42. -/
theorem c8_future_set_once_witness :
    ∃ f', fset futureInit 42 = some f' ∧ f'.done = true ∧
      f'.stored = some 42 ∧
      ∀ vs : List Int,
        setAll f' vs = f' ∧
        (∀ w, fset (setAll f' vs) w = none) ∧
        ∀ c, (faddCallback (setAll f' vs) c).delivered =
          f'.delivered ++ [(c, 42)] :=
  c8_future_set_once futureInit 42 rfl

/-- C6: a second `run` reports "cannot run a task twice" and `run` on a
canceled task reports "cannot run a canceled task"; both calls
short-circuit, leaving status, dependency set and the function
invocation count unchanged - the function runs exactly once total in
the run-twice case and zero times in the canceled case. -/
theorem c6_run_twice_or_canceled (cfg : TaskCfg) :
    (∀ st : TaskState, st.called = true →
      runTask cfg st =
        { st with completions :=
            st.completions ++ [(some "cannot run a task twice", none)] }) ∧
    (∀ st : TaskState, st.called = false → st.status = .canceled →
      runTask cfg st =
        { st with completions :=
            st.completions ++ [(some "cannot run a canceled task", none)] }) ∧
    (∀ a₀ env, futsTop a₀ = [] →
      (runTask cfg (initTask a₀ env)).invocations = [a₀] ∧
      (runTask cfg (runTask cfg (initTask a₀ env))).invocations = [a₀] ∧
      (runTask cfg (runTask cfg (initTask a₀ env))).completions =
        [(none, cfg.funcRet), (some "cannot run a task twice", none)] ∧
      (runTask cfg (runTask cfg (initTask a₀ env))).status = .done ∧
      (runTask cfg (runTask cfg (initTask a₀ env))).futures = []) ∧
    (∀ a₀ env, ∃ st2, cancelTask (initTask a₀ env) = some (true, st2) ∧
      runTask cfg st2 =
        { st2 with completions := [(some "cannot run a canceled task", none)] } ∧
      (runTask cfg st2).invocations = []) := by
  have h1 : ∀ st : TaskState, st.called = true →
      runTask cfg st =
        { st with completions :=
            st.completions ++ [(some "cannot run a task twice", none)] } := by
    intro st h; rw [runTask, if_pos h]
  have h2 : ∀ st : TaskState, st.called = false → st.status = .canceled →
      runTask cfg st =
        { st with completions :=
            st.completions ++ [(some "cannot run a canceled task", none)] } := by
    intro st hc hs
    rw [runTask, if_neg (by simp [hc]), if_pos hs]
  refine ⟨h1, h2, fun a₀ env hno => ?_, fun a₀ env => ?_⟩
  · rw [runTask_nofuture cfg a₀ env hno]
    rw [h1 _ rfl]
    refine ⟨rfl, rfl, rfl, rfl, rfl⟩
  · refine ⟨{ initTask a₀ env with status := .canceled },
      cancelTask_of_procrastinating (initTask a₀ env) rfl, ?_, ?_⟩
    · rw [h2 _ rfl rfl]; simp [initTask]
    · rw [h2 _ rfl rfl]; simp [initTask]

/-- Witness for C6: a concrete task run twice and a concrete canceled
task. -/
theorem c6_run_twice_or_canceled_witness :
    (runTask ⟨some 3⟩ (initTask [Arg.val 1, Arg.val 2] [])).invocations =
      [[Arg.val 1, Arg.val 2]] ∧
    (runTask ⟨some 3⟩ (runTask ⟨some 3⟩
      (initTask [Arg.val 1, Arg.val 2] []))).invocations =
      [[Arg.val 1, Arg.val 2]] ∧
    (runTask ⟨some 3⟩ (runTask ⟨some 3⟩
      (initTask [Arg.val 1, Arg.val 2] []))).completions =
      [(none, some 3), (some "cannot run a task twice", none)] ∧
    (∃ st2, cancelTask (initTask [Arg.val 1, Arg.val 2] []) =
        some (true, st2) ∧
      runTask ⟨some 3⟩ st2 =
        { st2 with completions := [(some "cannot run a canceled task", none)] } ∧
      (runTask ⟨some 3⟩ st2).invocations = []) := by
  have h := c6_run_twice_or_canceled (⟨some 3⟩ : TaskCfg)
  have h3 := h.2.2.1 [Arg.val 1, Arg.val 2] []
    (by simp [futsTop, futsList, futsArg])
  exact ⟨h3.1, h3.2.1, h3.2.2.1, h.2.2.2 [Arg.val 1, Arg.val 2] []⟩

/-- C3 fails on the code: the constructor does not scan the argument
tree - a freshly created task over `[future 0]` has an empty dependency
set although its argument tree embeds a future. -/
theorem c3_counterexample :
    (initTask [Arg.fut 0] []).futures = [] ∧
    futIds [Arg.fut 0] = [0] := by
  refine ⟨rfl, ?_⟩
  simp [futIds, futsTop, futsList, futsArg]

/-- C3 (amended): the recursive scan of the argument tree happens when
`run` is first called, not at creation; at the moment `create` returns
the dependency set is empty, and when `run` returns it holds exactly
the embedded futures (in traversal order) that were still pending. -/
theorem c3_scan_happens_at_run (cfg : TaskCfg) (a₀ : List Arg)
    (env : List (Nat × Int))
    (hp : ∀ q ∈ futsTop a₀, findVal env q.1 = none) :
    (initTask a₀ env).futures = [] ∧
    (runTask cfg (initTask a₀ env)).futures = futIds a₀ ∧
    (runTask cfg (initTask a₀ env)).regs = futsTop a₀ := by
  refine ⟨rfl, ?_, ?_⟩ <;>
  · by_cases hne : futIds a₀ = []
    · have hno : futsTop a₀ = [] :=
        List.map_eq_nil_iff.mp (show (futsTop a₀).map Prod.fst = [] from hne)
      rw [runTask_nofuture cfg a₀ env hno]
      simp [hne, hno]
    · rw [runTask_pending cfg a₀ env hp hne]

/-- Witness for C3's amended theorem at a concrete one-future task. -/
theorem c3_scan_happens_at_run_witness :
    (initTask [Arg.fut 0] []).futures = [] ∧
    (runTask ⟨none⟩ (initTask [Arg.fut 0] [])).futures = futIds [Arg.fut 0] ∧
    (runTask ⟨none⟩ (initTask [Arg.fut 0] [])).regs = futsTop [Arg.fut 0] :=
  c3_scan_happens_at_run ⟨none⟩ [Arg.fut 0] [] (fun q _ => rfl)

/-! ## Claims C2 and C5: the asynchronous convention -/

/-- C2 fails on the code: a function that invokes its completion
callback synchronously during its body completes the run with
`primaryResult` still `undefined`, not its return value 42 - `result`
is assigned only after `exec` returns. -/
theorem c2_counterexample :
    (applyMaybeAsync ⟨⟨1, [BodyAct.invokeCb []], some 42⟩, none⟩
      false false amInit).completions = [(none, none)] ∧
    (applyMaybeAsync ⟨⟨1, [BodyAct.invokeCb []], some 42⟩, none⟩
      false false amInit).status = .done ∧
    (applyMaybeAsync ⟨⟨1, [BodyAct.invokeCb []], some 42⟩, none⟩
      false false amInit).result = some 42 := by
  refine ⟨rfl, rfl, rfl⟩

/-- C2 (amended): when the function's declared last parameter position
holds a function value it is wrapped as a completion callback; after
the original function invokes it the task is `Done` and the run
caller's completion callback fires with `(error, primaryResult)`,
`error` null unless the wrapped callback itself raised;
`primaryResult` is the function's own return value provided the
callback is invoked after the body has returned - a callback invoked
synchronously during the body sees `result` still `undefined`. -/
theorem c2_async_convention (cfg : AMCfg) :
    (cfg.func.body = [] →
      (applyMaybeAsync cfg false false amInit).status = .running ∧
      (applyMaybeAsync cfg false false amInit).completions = [] ∧
      (applyMaybeAsync cfg false false amInit).result = cfg.func.ret ∧
      ∀ cargs,
        (laterCb cfg (applyMaybeAsync cfg false false amInit) cargs).status
          = .done ∧
        (laterCb cfg (applyMaybeAsync cfg false false amInit) cargs).completions
          = [(cfg.lastArgThrows, cfg.func.ret)] ∧
        (laterCb cfg (applyMaybeAsync cfg false false amInit) cargs).cbCalls
          = [cargs]) ∧
    (∀ cargs, cfg.func.body = [BodyAct.invokeCb cargs] →
      (applyMaybeAsync cfg false false amInit).status = .done ∧
      (applyMaybeAsync cfg false false amInit).completions =
        [(cfg.lastArgThrows, none)] ∧
      (applyMaybeAsync cfg false false amInit).result = cfg.func.ret) := by
  constructor
  · intro hb
    have hrun : applyMaybeAsync cfg false false amInit =
        { amInit with status := .running, result := cfg.func.ret } := by
      simp [applyMaybeAsync, hb, runBody]
    refine ⟨by rw [hrun], by rw [hrun]; rfl, by rw [hrun], fun cargs => ?_⟩
    rw [hrun]
    rcases h : cfg.lastArgThrows with _ | e <;>
      simp [laterCb, wrappedCb, cback, h, amInit]
  · intro cargs hb
    have hrun : applyMaybeAsync cfg false false amInit =
        { status := .done, result := cfg.func.ret, cbCalls := [cargs],
          completions := [(cfg.lastArgThrows, none)], uncaught := none } := by
      rcases h : cfg.lastArgThrows with _ | e <;>
        simp [applyMaybeAsync, hb, runBody, wrappedCb, cback, h, amInit]
    refine ⟨by rw [hrun], by rw [hrun], by rw [hrun]⟩

/-- Witness for C2's amended theorem: a truly asynchronous function
returning 7, and a synchronously-calling-back function returning 7. -/
theorem c2_async_convention_witness :
    ((applyMaybeAsync ⟨⟨1, [], some 7⟩, none⟩ false false amInit).status
        = .running ∧
      (laterCb ⟨⟨1, [], some 7⟩, none⟩
        (applyMaybeAsync ⟨⟨1, [], some 7⟩, none⟩ false false amInit)
        [5]).completions = [(none, some 7)]) ∧
    (applyMaybeAsync ⟨⟨1, [BodyAct.invokeCb [5]], some 7⟩, some "E"⟩
      false false amInit).completions = [(some "E", none)] := by
  have h1 := (c2_async_convention ⟨⟨1, [], some 7⟩, none⟩).1 rfl
  have h2 := (c2_async_convention
    ⟨⟨1, [BodyAct.invokeCb [5]], some 7⟩, some "E"⟩).2 [5] rfl
  exact ⟨⟨h1.1, (h1.2.2.2 [5]).2.1⟩, h2.2.1⟩

/-- C5 fails on the code: an error thrown synchronously by the user's
function body is not caught - it escapes `run` (the completion callback
never fires with it), and a list running such a task aborts, never
reaching the remaining tasks. -/
theorem c5_counterexample :
    (applyMaybeSync ⟨some "boom", some 1⟩ false false amInit).uncaught
      = some "boom" ∧
    (applyMaybeSync ⟨some "boom", some 1⟩ false false amInit).completions
      = [] ∧
    (listRun [⟨0, .procrastinating, .raises "boom"⟩,
              ⟨1, .procrastinating, .completes none (some 2)⟩]).results = [] ∧
    (listRun [⟨0, .procrastinating, .raises "boom"⟩,
              ⟨1, .procrastinating, .completes none (some 2)⟩]).uncaught
      = some "boom" := by
  refine ⟨rfl, rfl, rfl, rfl⟩

/-- C5 (amended): only an error raised by the wrapped completion
callback (the asynchronous completion) is delivered to the task's run
completion callback as the error argument; an error thrown
synchronously by the function body escapes `run` uncaught with no
completion fired, and a `TaskList` running such a task stops - the
remaining tasks of the snapshot are not processed. -/
theorem c5_error_delivery (cfg : AMCfg) (scfg : SyncFunc) :
    (∀ e st cargs, cfg.lastArgThrows = some e →
      (laterCb cfg st cargs).completions =
        st.completions ++ [(some e, st.result)] ∧
      (laterCb cfg st cargs).status = .done) ∧
    (∀ e, scfg.raises = some e →
      (applyMaybeSync scfg false false amInit).uncaught = some e ∧
      (applyMaybeSync scfg false false amInit).completions = [] ∧
      (applyMaybeSync scfg false false amInit).status = .running) ∧
    (∀ st0 : ListRun, ∀ e rest, ∀ t : TItem,
      t.status ≠ .canceled → t.beh = .raises e →
      listRunGo st0 (t :: rest) = { st0 with uncaught := some e }) := by
  refine ⟨fun e st cargs he => ?_, fun e he => ?_,
    fun st0 e rest t hs hb => ?_⟩
  · simp [laterCb, wrappedCb, cback, he]
  · simp [applyMaybeSync, he, amInit]
  · rw [listRunGo, if_neg hs, hb]

/-- Witness for C5's amended theorem at concrete configurations. -/
theorem c5_error_delivery_witness :
    (laterCb ⟨⟨1, [], some 7⟩, some "bad"⟩
      { status := .running, result := some 7, cbCalls := [],
        completions := [], uncaught := none } []).completions
      = [(some "bad", some 7)] ∧
    (applyMaybeSync ⟨some "boom", none⟩ false false amInit).uncaught
      = some "boom" ∧
    listRunGo
      { live := [⟨0, .procrastinating, .raises "boom"⟩], results := [],
        changes := [], doneCalls := [], uncaught := none }
      [⟨0, .procrastinating, .raises "boom"⟩,
       ⟨1, .procrastinating, .completes none none⟩] =
      { live := [⟨0, .procrastinating, .raises "boom"⟩], results := [],
        changes := [], doneCalls := [], uncaught := some "boom" } := by
  have h := c5_error_delivery ⟨⟨1, [], some 7⟩, some "bad"⟩ ⟨some "boom", none⟩
  refine ⟨(h.1 "bad" _ [] rfl).1, (h.2.1 "boom" rfl).1,
    h.2.2 _ "boom" [⟨1, .procrastinating, .completes none none⟩]
      ⟨0, .procrastinating, .raises "boom"⟩ (by simp) rfl⟩

/-! ## Claim C4: the list scheduler and canceled tasks -/

/-- C4: on an empty list `run` fires the done callback with `[]`
immediately, and a canceled task is skipped - never invoked, excluded
from the results, removed from the live sequence, with neither
callback fired for it; but on a non-empty list whose tasks were all
canceled the done callback is never invoked at all, contradicting the
claim that `onAllComplete([])` fires whenever the effective snapshot
is empty. -/
theorem c4_all_canceled_no_completion :
    (listRun []).doneCalls = [[]] ∧
    (listRun [⟨0, .canceled, .completes none none⟩]).doneCalls = [] ∧
    (listRun [⟨0, .canceled, .completes none none⟩]).results = [] ∧
    (listRun [⟨0, .canceled, .completes none none⟩]).changes = [] ∧
    (listRun [⟨0, .canceled, .completes none none⟩]).live = [] ∧
    (listRun [⟨0, .canceled, .completes none none⟩,
              ⟨1, .procrastinating, .completes none (some 5)⟩]).results =
      [(1, none, some 5)] ∧
    (listRun [⟨0, .canceled, .completes none none⟩,
              ⟨1, .procrastinating, .completes none (some 5)⟩]).doneCalls =
      [[(1, none, some 5)]] := by
  refine ⟨rfl, rfl, rfl, rfl, rfl, rfl, rfl⟩

/-! ## Claim C9: cancellation wins over later resolutions -/

/-- `applyMaybe` is a no-op on a canceled task. -/
theorem applyMaybe_of_canceled (cfg : TaskCfg) (st : TaskState)
    (h : st.status = .canceled) : applyMaybe cfg st = st := by
  simp [applyMaybe, h]

/-- Firing resolution callbacks on a canceled task substitutes values
but never invokes the function, never completes, and never leaves the
`canceled` status. -/
theorem fireRegs_of_canceled (cfg : TaskCfg) (i : Nat) (v : Int) :
    ∀ (regs : List (Nat × TPath)) (st : TaskState), st.status = .canceled →
      (fireRegs cfg i v regs st).status = .canceled ∧
      (fireRegs cfg i v regs st).invocations = st.invocations ∧
      (fireRegs cfg i v regs st).completions = st.completions := by
  intro regs
  induction regs with
  | nil => intro st h; exact ⟨h, rfl, rfl⟩
  | cons r rs ih =>
      intro st h
      rcases r with ⟨j, p⟩
      rw [fireRegs]
      by_cases hji : j = i
      · rw [if_pos hji,
          applyMaybe_of_canceled cfg
            { st with args := setTop st.args p (.val v),
                      futures := spliceOut st.futures i } h]
        exact ih _ h
      · rw [if_neg hji]; exact ih _ h

/-- Any sequence of future resolutions delivered to a canceled task
leaves it canceled with the function never invoked. -/
theorem applySets_of_canceled (cfg : TaskCfg) :
    ∀ (sets : List (Nat × Int)) (st : TaskState), st.status = .canceled →
      (applySets cfg st sets).status = .canceled ∧
      (applySets cfg st sets).invocations = st.invocations ∧
      (applySets cfg st sets).completions = st.completions := by
  intro sets
  induction sets with
  | nil => intro st h; exact ⟨h, rfl, rfl⟩
  | cons sv rest ih =>
      intro st h
      rcases sv with ⟨i, v⟩
      rw [applySets]
      rcases hg : futureSet cfg st i v with _ | st'
      · simpa [hg] using ih st h
      · rw [futureSet] at hg
        by_cases hdone : (findVal st.fenv i).isSome
        · rw [if_pos hdone] at hg; exact absurd hg (by simp)
        · rw [if_neg hdone] at hg
          have hfr := fireRegs_of_canceled cfg i v st.regs
            { st with fenv := st.fenv ++ [(i, v)] } h
          have := ih st' (by rw [← Option.some_inj.mp hg]; exact hfr.1)
          rw [Option.getD_some]
          refine ⟨this.1, ?_, ?_⟩
          · rw [this.2.1, ← Option.some_inj.mp hg, hfr.2.1]
          · rw [this.2.2, ← Option.some_inj.mp hg, hfr.2.2]

/-- C9: a task successfully canceled while `Procrastinating` - here one
whose `run` was already called and which waits on pending futures - is
never invoked by later future resolutions and stays `Canceled`
forever. -/
theorem c9_canceled_stays_canceled (cfg : TaskCfg) (a₀ : List Arg)
    (env : List (Nat × Int))
    (hp : ∀ q ∈ futsTop a₀, findVal env q.1 = none)
    (hne : futIds a₀ ≠ []) :
    ∃ st2, cancelTask (runTask cfg (initTask a₀ env)) = some (true, st2) ∧
      st2.status = .canceled ∧
      ∀ sets : List (Nat × Int),
        (applySets cfg st2 sets).status = .canceled ∧
        (applySets cfg st2 sets).invocations = [] ∧
        (applySets cfg st2 sets).completions = [] := by
  rw [runTask_pending cfg a₀ env hp hne]
  refine ⟨_, cancelTask_of_procrastinating _ rfl, rfl, fun sets => ?_⟩
  exact applySets_of_canceled cfg sets _ rfl

/-- Witness for C9 at a concrete one-future task whose future is set
after cancellation. -/
theorem c9_canceled_stays_canceled_witness :
    ∃ st2, cancelTask (runTask ⟨none⟩ (initTask [Arg.fut 0] [])) =
        some (true, st2) ∧
      st2.status = .canceled ∧
      ∀ sets : List (Nat × Int),
        (applySets ⟨none⟩ st2 sets).status = .canceled ∧
        (applySets ⟨none⟩ st2 sets).invocations = [] ∧
        (applySets ⟨none⟩ st2 sets).completions = [] :=
  c9_canceled_stays_canceled ⟨none⟩ [Arg.fut 0] [] (fun q _ => rfl)
    (by simp [futIds, futsTop, futsList, futsArg])

/-! ## Claim C1: lemmas about environments, identifiers and
substitution -/

/-- Lookup in a concatenated environment, left part missing. -/
theorem findVal_append_of_none (σ τ : List (Nat × Int)) (i : Nat)
    (h : findVal σ i = none) : findVal (σ ++ τ) i = findVal τ i := by
  induction σ with
  | nil => rfl
  | cons b σ ih =>
      rcases b with ⟨j, v⟩
      rw [findVal] at h
      by_cases hji : j = i
      · rw [if_pos hji] at h; exact absurd h (by simp)
      · rw [List.cons_append, findVal, if_neg hji]
        exact ih (by rwa [if_neg hji] at h)

/-- Lookup in a concatenated environment, left part present. -/
theorem findVal_append_of_some (σ τ : List (Nat × Int)) (i : Nat) (v : Int)
    (h : findVal σ i = some v) : findVal (σ ++ τ) i = some v := by
  induction σ with
  | nil => exact absurd h (by simp [findVal])
  | cons b σ ih =>
      rcases b with ⟨j, w⟩
      rw [findVal] at h
      by_cases hji : j = i
      · rw [if_pos hji] at h
        rw [List.cons_append, findVal, if_pos hji]; exact h
      · rw [if_neg hji] at h
        rw [List.cons_append, findVal, if_neg hji]; exact ih h

/-- A lookup misses exactly when the identifier is not bound. -/
theorem findVal_eq_none_iff (σ : List (Nat × Int)) (i : Nat) :
    findVal σ i = none ↔ i ∉ σ.map Prod.fst := by
  induction σ with
  | nil => simp [findVal]
  | cons b σ ih =>
      rcases b with ⟨j, v⟩
      rw [findVal]
      by_cases hji : j = i
      · simp [hji]
      · simp [hji, ih, Ne.symm hji]

/-- Appending an irrelevant binding does not change a lookup. -/
theorem findVal_snoc_ne (σ : List (Nat × Int)) (i j : Nat) (v : Int)
    (h : j ≠ i) : findVal (σ ++ [(i, v)]) j = findVal σ j := by
  rcases hs : findVal σ j with _ | w
  · rw [findVal_append_of_none σ _ j hs, findVal, if_neg (fun hij => h hij.symm)]
    rfl
  · exact findVal_append_of_some σ _ j w hs

/-- The appended binding is found when the left part misses it. -/
theorem findVal_snoc_self (σ : List (Nat × Int)) (i : Nat) (v : Int)
    (h : findVal σ i = none) : findVal (σ ++ [(i, v)]) i = some v := by
  rw [findVal_append_of_none σ _ i h, findVal, if_pos rfl]

/-- The identifiers of a list's occurrences do not depend on the index
offset. -/
theorem futsList_map_fst (xs : List Arg) :
    ∀ j, (futsList j xs).map Prod.fst = idsList xs := by
  induction xs with
  | nil => intro j; simp [futsList, idsList]
  | cons x xs ih =>
      intro j
      rw [futsList, List.map_append, List.map_map, idsList, ih (j + 1)]
      simp [idsArg]

/-- The identifiers of a mapping's occurrences. -/
theorem futsFields_map_fst (fs : List (String × Arg)) :
    (futsFields fs).map Prod.fst = idsFields fs := by
  induction fs with
  | nil => simp [futsFields, idsFields]
  | cons kx fs ih =>
      rcases kx with ⟨k, x⟩
      rw [futsFields, List.map_append, List.map_map, idsFields, ih]
      simp [idsArg]

theorem idsArg_arr (xs : List Arg) : idsArg (.arr xs) = idsList xs := by
  rw [idsArg, futsArg, futsList_map_fst]

theorem idsArg_obj (fs : List (String × Arg)) :
    idsArg (.obj fs) = idsFields fs := by
  rw [idsArg, futsArg, futsFields_map_fst]

theorem futIds_eq_idsList (xs : List Arg) : futIds xs = idsList xs := by
  rw [futIds, futsTop, futsList_map_fst]

/-- Substitution depends only on the lookups of the tree's own
identifiers (helper for sequences). -/
theorem substList_congr_of (σ σ' : List (Nat × Int)) (xs : List Arg)
    (H : ∀ x ∈ xs, (∀ j ∈ idsArg x, findVal σ' j = findVal σ j) →
      substArg σ' x = substArg σ x)
    (h : ∀ j ∈ idsList xs, findVal σ' j = findVal σ j) :
    substList σ' xs = substList σ xs := by
  induction xs with
  | nil => rfl
  | cons x xs ih =>
      rw [substList, substList, H x (by simp)
        (fun j hj => h j (by rw [idsList]; exact List.mem_append_left _ hj)),
        ih (fun x' hx' => H x' (by simp [hx']))
          (fun j hj => h j (by rw [idsList]; exact List.mem_append_right _ hj))]

/-- Substitution depends only on the lookups of the tree's own
identifiers (helper for mappings). -/
theorem substFields_congr_of (σ σ' : List (Nat × Int))
    (fs : List (String × Arg))
    (H : ∀ kx ∈ fs, (∀ j ∈ idsArg kx.2, findVal σ' j = findVal σ j) →
      substArg σ' kx.2 = substArg σ kx.2)
    (h : ∀ j ∈ idsFields fs, findVal σ' j = findVal σ j) :
    substFields σ' fs = substFields σ fs := by
  induction fs with
  | nil => rfl
  | cons kx fs ih =>
      rcases kx with ⟨k, x⟩
      rw [substFields, substFields, H (k, x) (by simp)
        (fun j hj => h j (by rw [idsFields]; exact List.mem_append_left _ hj)),
        ih (fun kx' hkx' => H kx' (by simp [hkx']))
          (fun j hj => h j (by rw [idsFields]; exact List.mem_append_right _ hj))]

/-- Substitution depends only on the lookups of the tree's own
identifiers. -/
theorem substArg_congr (a : Arg) :
    ∀ σ σ', (∀ j ∈ idsArg a, findVal σ' j = findVal σ j) →
      substArg σ' a = substArg σ a := by
  induction a using Arg.indOn with
  | hval n => intro σ σ' _; rfl
  | hfut i =>
      intro σ σ' h
      have hi := h i (by simp [idsArg, futsArg])
      rw [substArg, substArg, hi]
  | harr xs ih =>
      intro σ σ' h
      rw [substArg, substArg,
        substList_congr_of σ σ' xs (fun x hx => ih x hx σ σ')
          (by rwa [← idsArg_arr])]
  | hobj fs ih =>
      intro σ σ' h
      rw [substArg, substArg,
        substFields_congr_of σ σ' fs (fun kx hkx => ih kx hkx σ σ')
          (by rwa [← idsArg_obj])]

/-- The empty substitution is the identity. -/
theorem substArg_nil (a : Arg) : substArg [] a = a := by
  induction a using Arg.indOn with
  | hval n => rfl
  | hfut i => rfl
  | harr xs ih =>
      rw [substArg]
      congr 1
      induction xs with
      | nil => rfl
      | cons x xs ihl =>
          rw [substList, ih x (by simp),
            ihl (fun x' hx' => ih x' (by simp [hx']))]
  | hobj fs ih =>
      rw [substArg]
      congr 1
      induction fs with
      | nil => rfl
      | cons kx fs ihl =>
          rcases kx with ⟨k, x⟩
          rw [substFields, ih (k, x) (by simp),
            ihl (fun kx' hkx' => ih kx' (by simp [hkx']))]

theorem substTop_nil (xs : List Arg) : substTop [] xs = xs := by
  rw [substTop]
  induction xs with
  | nil => rfl
  | cons x xs ih => rw [substList, substArg_nil, ih]

/-- An irrelevant appended binding does not change a subtree's
substitution. -/
theorem substArg_snoc_not_mem (a : Arg) (σ : List (Nat × Int)) (i : Nat)
    (v : Int) (h : i ∉ idsArg a) :
    substArg (σ ++ [(i, v)]) a = substArg σ a :=
  substArg_congr a σ _ (fun j hj =>
    findVal_snoc_ne σ i j v (fun hji => h (hji ▸ hj)))

/-- An irrelevant appended binding does not change a sequence's
substitution. -/
theorem substList_snoc_not_mem (xs : List Arg) (σ : List (Nat × Int))
    (i : Nat) (v : Int) (h : i ∉ idsList xs) :
    substList (σ ++ [(i, v)]) xs = substList σ xs :=
  substList_congr_of σ _ xs (fun x _ h' => substArg_congr x σ _ h')
    (fun j hj => findVal_snoc_ne σ i j v (fun hji => h (hji ▸ hj)))

/-- An irrelevant appended binding does not change a mapping's
substitution. -/
theorem substFields_snoc_not_mem (fs : List (String × Arg))
    (σ : List (Nat × Int)) (i : Nat) (v : Int) (h : i ∉ idsFields fs) :
    substFields (σ ++ [(i, v)]) fs = substFields σ fs :=
  substFields_congr_of σ _ fs (fun kx _ h' => substArg_congr kx.2 σ _ h')
    (fun j hj => findVal_snoc_ne σ i j v (fun hji => h (hji ▸ hj)))

/-- Occurrence paths inside a sequence start with an index key at least
the offset. -/
theorem futsList_path_shape (xs : List Arg) :
    ∀ j i p', (i, p') ∈ futsList j xs →
      ∃ m p'', p' = Key.idx m :: p'' ∧ j ≤ m := by
  induction xs with
  | nil => intro j i p' h; simp [futsList] at h
  | cons x xs ih =>
      intro j i p' h
      rw [futsList] at h
      rcases List.mem_append.mp h with hL | hR
      · rcases List.mem_map.mp hL with ⟨q, _, heq⟩
        exact ⟨j, q.2, (congrArg Prod.snd heq).symm, le_refl j⟩
      · rcases ih (j + 1) i p' hR with ⟨m, p'', hp, hm⟩
        exact ⟨m, p'', hp, by omega⟩

/-- Occurrence paths inside a mapping start with a field key of the
mapping. -/
theorem futsFields_path_shape (fs : List (String × Arg)) :
    ∀ i p', (i, p') ∈ futsFields fs →
      ∃ k p'', p' = Key.fld k :: p'' ∧ k ∈ fs.map Prod.fst := by
  induction fs with
  | nil => intro i p' h; simp [futsFields] at h
  | cons kx fs ih =>
      intro i p' h
      rcases kx with ⟨k₁, x⟩
      rw [futsFields] at h
      rcases List.mem_append.mp h with hL | hR
      · rcases List.mem_map.mp hL with ⟨q, _, heq⟩
        exact ⟨k₁, q.2, (congrArg Prod.snd heq).symm, by simp⟩
      · rcases ih i p' hR with ⟨k, p'', hp, hk⟩
        exact ⟨k, p'', hp, by simp [hk]⟩

/-- Replacing a just-resolved future position in a sequence agrees with
the substitution extended by that binding (helper for sequences). -/
theorem updIdx_subst_of (xs : List Arg)
    (HK : ∀ x ∈ xs, ∀ p' σ i v, (i, p') ∈ futsArg x → (idsArg x).Nodup →
      wfArg x → findVal σ i = none →
      setArg (substArg σ x) p' (.val v) = substArg (σ ++ [(i, v)]) x) :
    ∀ j σ i v m p'', (i, Key.idx m :: p'') ∈ futsList j xs →
      (idsList xs).Nodup → wfList xs → findVal σ i = none →
      updIdx (substList σ xs) (m - j) p'' (.val v) =
        substList (σ ++ [(i, v)]) xs := by
  induction xs with
  | nil => intro j σ i v m p'' h; simp [futsList] at h
  | cons x xs ih =>
      intro j σ i v m p'' hmem hnd hwf hσ
      rw [idsList, List.nodup_append] at hnd
      rw [wfList] at hwf
      rw [futsList] at hmem
      rcases List.mem_append.mp hmem with hL | hR
      · rcases List.mem_map.mp hL with ⟨q, hq, heq⟩
        have hq1 : q.1 = i := congrArg Prod.fst heq
        have hkeys := congrArg Prod.snd heq
        simp only at hkeys
        have hjm : Key.idx j = Key.idx m ∧ q.2 = p'' := by
          have h1 := List.head_eq_of_cons_eq hkeys
          have h2 := List.tail_eq_of_cons_eq hkeys
          exact ⟨h1, h2⟩
        have hjm' : j = m := by
          cases hjm.1; rfl
        have hq' : (i, p'') ∈ futsArg x := by
          have : q = (i, p'') := by
            rcases q with ⟨q1, q2⟩
            simp only at hq1 hjm
            rw [hq1, hjm.2]
          rwa [this] at hq
        have hi : i ∈ idsArg x := List.mem_map_of_mem Prod.fst hq'
        rw [← hjm', Nat.sub_self, substList, substList, updIdx,
          HK x (by simp) p'' σ i v hq' hnd.1 hwf.1 hσ,
          substList_snoc_not_mem xs σ i v (hnd.2.2 hi)]
      · have hi : i ∈ idsList xs := by
          rw [← futsList_map_fst xs (j + 1)]
          exact List.mem_map_of_mem Prod.fst hR
        have hnx : i ∉ idsArg x := fun hx => (hnd.2.2 hx) hi
        rcases futsList_path_shape xs (j + 1) i (Key.idx m :: p'') hR with
          ⟨m', p''', hp, hm⟩
        have hm' : m' = m := by
          have := List.head_eq_of_cons_eq hp.symm
          cases this; rfl
        have hmj : m - j = (m - (j + 1)) + 1 := by omega
        rw [substList, substList, hmj, updIdx,
          substArg_snoc_not_mem x σ i v hnx,
          ih (fun x' hx' => HK x' (by simp [hx'])) (j + 1) σ i v m p'' hR
            hnd.2.1 hwf.2 hσ]

/-- Replacing a just-resolved future position in a mapping agrees with
the substitution extended by that binding (helper for mappings). -/
theorem updFld_subst_of (fs : List (String × Arg))
    (HK : ∀ kx ∈ fs, ∀ p' σ i v, (i, p') ∈ futsArg kx.2 →
      (idsArg kx.2).Nodup → wfArg kx.2 → findVal σ i = none →
      setArg (substArg σ kx.2) p' (.val v) = substArg (σ ++ [(i, v)]) kx.2) :
    ∀ σ i v k p'', (i, Key.fld k :: p'') ∈ futsFields fs →
      (idsFields fs).Nodup → (fs.map Prod.fst).Nodup → wfFields fs →
      findVal σ i = none →
      updFld (substFields σ fs) k p'' (.val v) =
        substFields (σ ++ [(i, v)]) fs := by
  induction fs with
  | nil => intro σ i v k p'' h; simp [futsFields] at h
  | cons kx fs ih =>
      intro σ i v k p'' hmem hnd hkeys hwf hσ
      rcases kx with ⟨k₁, x⟩
      rw [idsFields, List.nodup_append] at hnd
      rw [wfFields] at hwf
      rw [List.map_cons, List.nodup_cons] at hkeys
      rw [futsFields] at hmem
      rcases List.mem_append.mp hmem with hL | hR
      · rcases List.mem_map.mp hL with ⟨q, hq, heq⟩
        have hq1 : q.1 = i := congrArg Prod.fst heq
        have hkeys' := congrArg Prod.snd heq
        simp only at hkeys'
        have hk1 : Key.fld k₁ = Key.fld k :=
          List.head_eq_of_cons_eq hkeys'
        have hk1' : k₁ = k := by cases hk1; rfl
        have hq2 : q.2 = p'' := List.tail_eq_of_cons_eq hkeys'
        have hq' : (i, p'') ∈ futsArg x := by
          have : q = (i, p'') := by
            rcases q with ⟨q1, q2⟩
            simp only at hq1 hq2
            rw [hq1, hq2]
          rwa [this] at hq
        have hi : i ∈ idsArg x := List.mem_map_of_mem Prod.fst hq'
        rw [substFields, substFields, updFld, if_pos hk1',
          HK (k₁, x) (by simp) p'' σ i v hq' hnd.1 hwf.1 hσ,
          substFields_snoc_not_mem fs σ i v (hnd.2.2 hi), hk1']
      · have hi : i ∈ idsFields fs := by
          rw [← futsFields_map_fst fs]
          exact List.mem_map_of_mem Prod.fst hR
        have hnx : i ∉ idsArg x := fun hx => (hnd.2.2 hx) hi
        rcases futsFields_path_shape fs i (Key.fld k :: p'') hR with
          ⟨k', p''', hp, hk'⟩
        have hkk : k' = k := by
          have := List.head_eq_of_cons_eq hp.symm
          cases this; rfl
        have hne : k₁ ≠ k := by
          rw [← hkk]; exact fun hcon => hkeys.1 (hcon ▸ hk')
        rw [substFields, substFields, updFld, if_neg hne,
          substArg_snoc_not_mem x σ i v hnx,
          ih (fun kx' hkx' => HK kx' (by simp [hkx'])) σ i v k p'' hR
            hnd.2.1 hkeys.2 hwf.2 hσ]

/-- Replacing a just-resolved future position (the resolution
callback's `obj[key] = result`) turns the substitution by `σ` into the
substitution by `σ` extended with that future's binding. -/
theorem setArg_subst (a : Arg) :
    ∀ p' σ i v, (i, p') ∈ futsArg a → (idsArg a).Nodup → wfArg a →
      findVal σ i = none →
      setArg (substArg σ a) p' (.val v) = substArg (σ ++ [(i, v)]) a := by
  induction a using Arg.indOn with
  | hval n => intro p' σ i v h; simp [futsArg] at h
  | hfut i' =>
      intro p' σ i v h _ _ hσ
      rw [futsArg] at h
      rcases List.mem_singleton.mp h with heq
      have hi : i = i' := by
        have := congrArg Prod.fst heq; simpa using this
      have hp : p' = [] := by
        have := congrArg Prod.snd heq; simpa using this
      subst hi; subst hp
      rw [setArg, substArg, findVal_snoc_self σ i v hσ]
  | harr xs ih =>
      intro p' σ i v h hnd hwf hσ
      rw [futsArg] at h
      rcases futsList_path_shape xs 0 i p' h with ⟨m, p'', hp, _⟩
      subst hp
      rw [idsArg_arr] at hnd
      rw [wfArg] at hwf
      rw [substArg, substArg, setArg,
        show m = m - 0 from rfl,
        updIdx_subst_of xs (fun x hx => ih x hx) 0 σ i v m p'' h hnd hwf hσ]
  | hobj fs ih =>
      intro p' σ i v h hnd hwf hσ
      rw [futsArg] at h
      rcases futsFields_path_shape fs i p' h with ⟨k, p'', hp, _⟩
      subst hp
      rw [idsArg_obj] at hnd
      rw [wfArg] at hwf
      rw [substArg, substArg, setArg,
        updFld_subst_of fs (fun kx hkx => ih kx hkx) σ i v k p'' h hnd
          hwf.1 hwf.2 hσ]

/-- Top-level version of the replacement lemma: resolving the future
registered at a path of the argument list extends the substitution. -/
theorem setTop_subst (a₀ : List Arg) (p : TPath) (σ : List (Nat × Int))
    (i : Nat) (v : Int) (hmem : (i, p) ∈ futsTop a₀)
    (hnd : (futIds a₀).Nodup) (hwf : wfList a₀)
    (hσ : findVal σ i = none) :
    setTop (substTop σ a₀) p (.val v) = substTop (σ ++ [(i, v)]) a₀ := by
  rw [futsTop] at hmem
  rcases futsList_path_shape a₀ 0 i p hmem with ⟨m, p'', hp, _⟩
  subst hp
  rw [futIds_eq_idsList] at hnd
  rw [substTop, substTop, setTop,
    show m = m - 0 from rfl,
    updIdx_subst_of a₀ (fun x hx p' σ' i' v' => setArg_subst x p' σ' i' v')
      0 σ i v m p'' hmem hnd hwf hσ]

/-- Splicing a just-resolved identifier out of the outstanding list
refines the pending filter by the extended substitution. -/
theorem spliceOut_filter (i : Nat) (v : Int) :
    ∀ (l : List Nat), l.Nodup → ∀ σ : List (Nat × Int),
      findVal σ i = none → i ∈ l →
      spliceOut (l.filter (fun j => (findVal σ j).isNone)) i =
        l.filter (fun j => (findVal (σ ++ [(i, v)]) j).isNone) := by
  intro l
  induction l with
  | nil => intro _ σ _ h; simp at h
  | cons j rest ih =>
      intro hnd σ hσ hmem
      rw [List.nodup_cons] at hnd
      by_cases hji : j = i
      · subst hji
        rw [List.filter_cons, if_pos (by simp [hσ]), spliceOut, if_pos rfl,
          List.filter_cons, if_neg (by simp [findVal_snoc_self σ j v hσ])]
        refine List.filter_congr ?_
        intro x hx
        have hxj : x ≠ j := fun hc => hnd.1 (hc ▸ hx)
        rw [findVal_snoc_ne σ j x v hxj]
      · have hmem' : i ∈ rest := by
          rcases List.mem_cons.mp hmem with hc | hc
          · exact absurd hc.symm hji
          · exact hc
        have hpj : findVal (σ ++ [(i, v)]) j = findVal σ j :=
          findVal_snoc_ne σ i j v hji
        rcases hj : (findVal σ j).isNone with _ | _
        · rw [List.filter_cons, if_neg (by simp [hj]),
            List.filter_cons, if_neg (by simp [hpj, hj]),
            ih hnd.2 σ hσ hmem']
        · rw [List.filter_cons, if_pos (by simp [hj]),
            List.filter_cons, if_pos (by simp [hpj, hj]),
            spliceOut, if_neg hji]
          have hcont : (List.filter (fun j => (findVal σ j).isNone) rest).contains i
              = true := by
            rw [List.elem_iff]
            exact List.mem_filter.mpr ⟨hmem', by simp [hσ]⟩
          rw [if_pos hcont, ih hnd.2 σ hσ hmem']

/-- A registration list with distinct identifiers splits around any of
its members, with the identifier absent on both sides. -/
theorem regs_split (i : Nat) (p : TPath) :
    ∀ (l : List (Nat × TPath)), (i, p) ∈ l → (l.map Prod.fst).Nodup →
      ∃ pre post, l = pre ++ (i, p) :: post ∧
        (∀ q ∈ pre, q.1 ≠ i) ∧ (∀ q ∈ post, q.1 ≠ i) := by
  intro l
  induction l with
  | nil => intro h; simp at h
  | cons q₀ rest ih =>
      intro hmem hnd
      rw [List.map_cons, List.nodup_cons] at hnd
      rcases List.mem_cons.mp hmem with hc | hc
      · subst hc
        refine ⟨[], rest, rfl, by simp, fun q hq hqi => ?_⟩
        have h1 : q.1 ∈ rest.map Prod.fst := List.mem_map_of_mem Prod.fst hq
        rw [hqi] at h1
        exact hnd.1 h1
      · rcases ih hc hnd.2 with ⟨pre, post, hsplit, hpre, hpost⟩
        refine ⟨q₀ :: pre, post, by rw [hsplit, List.cons_append],
          fun q hq => ?_, hpost⟩
        rcases List.mem_cons.mp hq with hq0 | hq0
        · subst hq0
          intro hqi
          have h1 : (i, p).1 ∈ rest.map Prod.fst := by
            rw [hsplit]
            exact List.mem_map_of_mem Prod.fst
              (List.mem_append_right _ (by simp))
          exact hnd.1 (by rw [hqi]; exact h1)
        · exact hpre q hq0
      
/-- Firing the callbacks of a future none of the registrations name is
a no-op. -/
theorem fireRegs_skips (cfg : TaskCfg) (i : Nat) (v : Int) :
    ∀ (rs : List (Nat × TPath)) (st : TaskState),
      (∀ q ∈ rs, q.1 ≠ i) → fireRegs cfg i v rs st = st := by
  intro rs
  induction rs with
  | nil => intro st _; rfl
  | cons r rs ih =>
      intro st h
      rcases r with ⟨j, p⟩
      rw [fireRegs, if_neg (h (j, p) (by simp))]
      exact ih st (fun q hq => h q (by simp [hq]))

/-- Firing the callbacks of a future registered exactly once: the
single callback substitutes the value, splices the future out and
re-checks execution. -/
theorem fireRegs_single (cfg : TaskCfg) (i : Nat) (v : Int)
    (pre post : List (Nat × TPath)) (p : TPath)
    (hpre : ∀ q ∈ pre, q.1 ≠ i) (hpost : ∀ q ∈ post, q.1 ≠ i) :
    ∀ st : TaskState,
      fireRegs cfg i v (pre ++ (i, p) :: post) st =
        applyMaybe cfg
          { st with args := setTop st.args p (.val v),
                    futures := spliceOut st.futures i } := by
  induction pre with
  | nil =>
      intro st
      rw [List.nil_append, fireRegs, if_pos rfl]
      exact fireRegs_skips cfg i v post _ hpost
  | cons r pre ih =>
      intro st
      rcases r with ⟨j, p'⟩
      rw [List.cons_append, fireRegs, if_neg (hpre (j, p') (by simp))]
      exact ih (fun q hq => hpre q (by simp [hq])) st

/-- Delivering one resolution to a mid-run task: the registered
callback substitutes the value at its position, splices the future out,
and either completes the task (when it was the last pending future) or
leaves it procrastinating with the extended substitution. -/
theorem futureSet_mid (cfg : TaskCfg) (a₀ : List Arg)
    (env σ : List (Nat × Int)) (i : Nat) (v : Int)
    (hwf : wfList a₀) (hnd : (futIds a₀).Nodup)
    (hp : ∀ q ∈ futsTop a₀, findVal env q.1 = none)
    (hmem : i ∈ futIds a₀) (hσ : findVal σ i = none) :
    futureSet cfg (midState a₀ env σ) i v =
      some (if (futIds a₀).filter
          (fun j => (findVal (σ ++ [(i, v)]) j).isNone) = []
        then doneState cfg a₀ env (σ ++ [(i, v)])
        else midState a₀ env (σ ++ [(i, v)])) := by
  rcases List.mem_map.mp (show i ∈ (futsTop a₀).map Prod.fst from hmem)
    with ⟨q, hq, hfst⟩
  have hpmem : (i, q.2) ∈ futsTop a₀ := by
    have : (i, q.2) = q := by
      rcases q with ⟨q1, q2⟩; simp only at hfst; rw [hfst]
    rwa [this]
  have henv : findVal (env ++ σ) i = none := by
    rw [findVal_append_of_none env σ i (hp (i, q.2) hpmem), hσ]
  have hndm : ((futsTop a₀).map Prod.fst).Nodup := hnd
  rcases regs_split i q.2 (futsTop a₀) hpmem hndm with
    ⟨pre, post, hsplit, hpre, hpost⟩
  rw [futureSet]
  rw [if_neg (by show ¬((findVal (env ++ σ) i).isSome = true); simp [henv])]
  have hregs : (midState a₀ env σ).regs = pre ++ (i, q.2) :: post := hsplit
  rw [show (fireRegs cfg i v (midState a₀ env σ).regs
        { midState a₀ env σ with fenv := (midState a₀ env σ).fenv ++ [(i, v)] })
      = fireRegs cfg i v (pre ++ (i, q.2) :: post)
        { midState a₀ env σ with fenv := (midState a₀ env σ).fenv ++ [(i, v)] }
    from by rw [hregs]]
  rw [fireRegs_single cfg i v pre post q.2 hpre hpost]
  have hargs : setTop (substTop σ a₀) q.2 (.val v) =
      substTop (σ ++ [(i, v)]) a₀ :=
    setTop_subst a₀ q.2 σ i v hpmem hnd hwf hσ
  have hfut : spliceOut
      ((futIds a₀).filter (fun j => (findVal σ j).isNone)) i =
      (futIds a₀).filter (fun j => (findVal (σ ++ [(i, v)]) j).isNone) :=
    spliceOut_filter i v (futIds a₀) hnd σ hσ hmem
  by_cases hrem : (futIds a₀).filter
      (fun j => (findVal (σ ++ [(i, v)]) j).isNone) = []
  · rw [if_pos hrem, applyMaybe]
    rw [if_neg (by
      show ¬(_ ∨ ¬_ = _)
      simp only [midState, hargs, hfut, hrem]
      simp)]
    simp only [midState, doneState, hargs, hfut, hrem]
    rw [List.append_assoc]
    simp
  · rw [if_neg hrem, applyMaybe]
    rw [if_pos (by
      simp only [midState, hfut]
      exact Or.inr (by simpa using hrem))]
    simp only [midState, hargs, hfut]
    rw [List.append_assoc]

/-- A resolved identifier has a binding. -/
theorem findVal_isSome_of_mem (σ : List (Nat × Int)) (j : Nat)
    (h : j ∈ σ.map Prod.fst) : (findVal σ j).isSome = true := by
  rcases hs : findVal σ j with _ | w
  · exact absurd ((findVal_eq_none_iff σ j).mp hs) (by simpa using h)
  · rfl

/-- Delivering, to a task run while all its futures were pending, the
resolutions `rest` after the resolutions `σ`: while a later resolution
remains outstanding the task keeps procrastinating with the
substitution accumulated; once the final resolution arrives the task
completes. -/
theorem applySets_mid (cfg : TaskCfg) (a₀ : List Arg)
    (env : List (Nat × Int))
    (hwf : wfList a₀) (hnd : (futIds a₀).Nodup)
    (hp : ∀ q ∈ futsTop a₀, findVal env q.1 = none) :
    ∀ (rest σ suf : List (Nat × Int)),
      List.Perm (σ.map Prod.fst ++ rest.map Prod.fst ++ suf.map Prod.fst)
        (futIds a₀) →
      (suf ≠ [] →
        applySets cfg (midState a₀ env σ) rest =
          midState a₀ env (σ ++ rest)) ∧
      (suf = [] → rest ≠ [] →
        applySets cfg (midState a₀ env σ) rest =
          doneState cfg a₀ env (σ ++ rest)) := by
  intro rest
  induction rest with
  | nil =>
      intro σ suf _
      exact ⟨fun _ => by rw [applySets, List.append_nil],
        fun _ h => absurd rfl h⟩
  | cons sv rest ih =>
      intro σ suf hperm
      rcases sv with ⟨i, v⟩
      have hperm' : List.Perm
          (σ.map Prod.fst ++ (i :: (rest.map Prod.fst ++ suf.map Prod.fst)))
          (futIds a₀) := by
        simpa [List.append_assoc] using hperm
      have hndall : (σ.map Prod.fst ++
          (i :: (rest.map Prod.fst ++ suf.map Prod.fst))).Nodup :=
        hperm'.nodup_iff.mpr hnd
      have hσdisj := (List.nodup_append.mp hndall).2.2
      have hitail : i ∉ rest.map Prod.fst ++ suf.map Prod.fst :=
        (List.nodup_cons.mp (List.nodup_append.mp hndall).2.1).1
      have hiσ : i ∉ σ.map Prod.fst := fun hin =>
        hσdisj hin (by simp)
      have hσi : findVal σ i = none := (findVal_eq_none_iff σ i).mpr hiσ
      have himem : i ∈ futIds a₀ := hperm'.mem_iff.mp (by simp)
      have hstep := futureSet_mid cfg a₀ env σ i v hwf hnd hp himem hσi
      -- an identifier still pending after this resolution stays in the
      -- filtered dependency list
      have hkeep : ∀ j, j ∈ rest.map Prod.fst ++ suf.map Prod.fst →
          j ∈ (futIds a₀).filter
            (fun j => (findVal (σ ++ [(i, v)]) j).isNone) := by
        intro j hj
        have hji : j ≠ i := fun hc => hitail (hc ▸ hj)
        have hjσ : j ∉ σ.map Prod.fst := fun hin =>
          hσdisj hin (by simp [hj])
        have hjmem : j ∈ futIds a₀ := hperm'.mem_iff.mp (by simp [hj])
        refine List.mem_filter.mpr ⟨hjmem, ?_⟩
        rw [findVal_snoc_ne σ i j v hji,
          (findVal_eq_none_iff σ j).mpr hjσ]
        rfl
      rw [applySets, hstep, Option.getD_some]
      by_cases hrem : (futIds a₀).filter
          (fun j => (findVal (σ ++ [(i, v)]) j).isNone) = []
      · -- all futures resolved: this was the last resolution
        have hrests : rest = [] := by
          rcases rest with _ | ⟨⟨j, w⟩, rest'⟩
          · rfl
          · exact absurd (hrem ▸ hkeep j (by simp)) (by simp)
        have hsufs : suf = [] := by
          rcases suf with _ | ⟨⟨j, w⟩, suf'⟩
          · rfl
          · exact absurd (hrem ▸ hkeep j (by simp [hrests])) (by simp)
        subst hrests
        rw [if_pos hrem]
        exact ⟨fun hs => absurd hsufs hs, fun _ _ => by rw [applySets]⟩
      · rw [if_neg hrem]
        have hpermn : List.Perm
            ((σ ++ [(i, v)]).map Prod.fst ++ rest.map Prod.fst ++
              suf.map Prod.fst) (futIds a₀) := by
          simpa [List.append_assoc] using hperm
        have := ih (σ ++ [(i, v)]) suf hpermn
        refine ⟨fun hs => ?_, fun hs hr => ?_⟩
        · rw [this.1 hs, List.append_assoc, List.singleton_append]
        · have hrne : rest ≠ [] := by
            intro hre
            subst hre; subst hs
            refine hrem (List.filter_eq_nil_iff.mpr ?_)
            intro j hj
            have hmem2 := hperm'.mem_iff.mpr hj
            simp only [List.map_nil, List.append_nil, List.nil_append]
              at hmem2
            have hj' : j ∈ (σ ++ [(i, v)]).map Prod.fst := by
              rw [List.map_append, List.map_cons, List.map_nil]
              rcases List.mem_append.mp hmem2 with hσm | him
              · exact List.mem_append_left _ hσm
              · rcases List.mem_cons.mp him with him' | him'
                · exact List.mem_append_right _ (by simp [him'])
                · exact absurd him' (by simp)
            have hsome := findVal_isSome_of_mem (σ ++ [(i, v)]) j hj'
            intro hnone
            rw [Option.isNone_iff_eq_none] at hnone
            rw [hnone] at hsome
            exact absurd hsome (by simp)
          rw [this.2 hs hrne, List.append_assoc, List.singleton_append]

/-- A run while every embedded future is pending lands exactly in the
mid-run state with the empty substitution. -/
theorem runTask_eq_midState (cfg : TaskCfg) (a₀ : List Arg)
    (env : List (Nat × Int))
    (hp : ∀ q ∈ futsTop a₀, findVal env q.1 = none)
    (hne : futIds a₀ ≠ []) :
    runTask cfg (initTask a₀ env) = midState a₀ env [] := by
  rw [runTask_pending cfg a₀ env hp hne]
  simp [midState, substTop_nil, findVal]

/-! ## Claim C1: statement, counterexample and amended theorem -/

/-- C1 fails as stated on the code: over `[future 0, future 1]` with
future 0 already resolved to 5 when `run` is called, the immediate
resolution callback fires `applyMaybe` while the scan has not yet
reached future 1, so the function is invoked although future 1 has
never been set, with the raw future at its position - and the task is
already `Done`. -/
theorem c1_counterexample :
    (runTask ⟨none⟩ (initTask [Arg.fut 0, Arg.fut 1] [(0, 5)])).invocations =
      [[Arg.val 5, Arg.fut 1]] ∧
    findVal (runTask ⟨none⟩ (initTask [Arg.fut 0, Arg.fut 1] [(0, 5)])).fenv 1
      = none ∧
    (runTask ⟨none⟩ (initTask [Arg.fut 0, Arg.fut 1] [(0, 5)])).status =
      .done := by
  refine ⟨?_, ?_, ?_⟩ <;>
    simp [runTask, searchFutures, scanList, scanArg, handleOcc, applyMaybe,
      initTask, findVal, setTop, updIdx, setArg, spliceOut]

/-- C1 (amended): provided no embedded future has been resolved before
`run` is called (and the futures of the tree are distinct), the
function is not invoked until every embedded future has been set -
after any proper prefix of the resolutions the task still
procrastinates with nothing invoked - and when the last future
resolves the function is invoked exactly once, with every future
position replaced by its resolved value exactly where it appeared and
every sibling value unchanged (the substituted tree), after which the
task is done and the completion callback has fired once. -/
theorem c1_nested_futures (cfg : TaskCfg) (a₀ : List Arg)
    (env sets : List (Nat × Int))
    (hwf : wfList a₀) (hnd : (futIds a₀).Nodup)
    (hp : ∀ q ∈ futsTop a₀, findVal env q.1 = none)
    (hperm : List.Perm (sets.map Prod.fst) (futIds a₀))
    (hne : sets ≠ []) :
    applySets cfg (runTask cfg (initTask a₀ env)) sets =
      doneState cfg a₀ env sets ∧
    (applySets cfg (runTask cfg (initTask a₀ env)) sets).invocations =
      [substTop sets a₀] ∧
    (applySets cfg (runTask cfg (initTask a₀ env)) sets).completions =
      [(none, cfg.funcRet)] ∧
    ∀ pre suf, sets = pre ++ suf → suf ≠ [] →
      applySets cfg (runTask cfg (initTask a₀ env)) pre =
        midState a₀ env pre ∧
      (applySets cfg (runTask cfg (initTask a₀ env)) pre).invocations = [] ∧
      (applySets cfg (runTask cfg (initTask a₀ env)) pre).status =
        .procrastinating := by
  have hfne : futIds a₀ ≠ [] := by
    intro h0
    rw [h0] at hperm
    exact hne (List.map_eq_nil_iff.mp hperm.eq_nil)
  have hmid := runTask_eq_midState cfg a₀ env hp hfne
  have hmain := (applySets_mid cfg a₀ env hwf hnd hp sets [] []
    (by simpa using hperm)).2 rfl hne
  have hfull : applySets cfg (midState a₀ env []) sets =
      doneState cfg a₀ env sets := by simpa using hmain
  refine ⟨by rw [hmid, hfull], by rw [hmid, hfull]; rfl,
    by rw [hmid, hfull]; rfl, fun pre suf hsp hsne => ?_⟩
  have hpermp : List.Perm
      (([] : List (Nat × Int)).map Prod.fst ++ pre.map Prod.fst ++
        suf.map Prod.fst) (futIds a₀) := by
    simp only [List.map_nil, List.nil_append]
    rw [← List.map_append, ← hsp]
    exact hperm
  have hpre := (applySets_mid cfg a₀ env hwf hnd hp pre [] suf hpermp).1 hsne
  have hpre' : applySets cfg (midState a₀ env []) pre =
      midState a₀ env pre := by simpa using hpre
  rw [hmid]
  exact ⟨hpre', by rw [hpre']; rfl, by rw [hpre']; rfl⟩

/-- Witness for C1's amended theorem: a task over
`[1, [future 0], {k: future 2}]`, run first, with the futures then
resolved to 9 and 8. -/
theorem c1_nested_futures_witness :
    applySets ⟨some 3⟩
      (runTask ⟨some 3⟩ (initTask
        [Arg.val 1, Arg.arr [Arg.fut 0], Arg.obj [("k", Arg.fut 2)]] []))
      [(0, 9), (2, 8)] =
      doneState ⟨some 3⟩
        [Arg.val 1, Arg.arr [Arg.fut 0], Arg.obj [("k", Arg.fut 2)]] []
        [(0, 9), (2, 8)] ∧
    (applySets ⟨some 3⟩
      (runTask ⟨some 3⟩ (initTask
        [Arg.val 1, Arg.arr [Arg.fut 0], Arg.obj [("k", Arg.fut 2)]] []))
      [(0, 9), (2, 8)]).invocations =
      [substTop [(0, 9), (2, 8)]
        [Arg.val 1, Arg.arr [Arg.fut 0], Arg.obj [("k", Arg.fut 2)]]] ∧
    applySets ⟨some 3⟩
      (runTask ⟨some 3⟩ (initTask
        [Arg.val 1, Arg.arr [Arg.fut 0], Arg.obj [("k", Arg.fut 2)]] []))
      [(0, 9)] =
      midState [Arg.val 1, Arg.arr [Arg.fut 0], Arg.obj [("k", Arg.fut 2)]]
        [] [(0, 9)] := by
  have hids : futIds
      [Arg.val 1, Arg.arr [Arg.fut 0], Arg.obj [("k", Arg.fut 2)]] =
      [0, 2] := by
    simp [futIds, futsTop, futsList, futsArg, futsFields]
  have h := c1_nested_futures ⟨some 3⟩
    [Arg.val 1, Arg.arr [Arg.fut 0], Arg.obj [("k", Arg.fut 2)]]
    [] [(0, 9), (2, 8)]
    (by simp [wfList, wfArg, wfFields])
    (by rw [hids]; simp)
    (fun q _ => rfl)
    (by rw [hids]; simp)
    (by simp)
  exact ⟨h.1, h.2.1, (h.2.2.2 [(0, 9)] [(2, 8)] rfl (by simp)).1⟩

/-! ## Claim C10: evaluation and inversion lemmas for reads -/

theorem readVal_num (h : Heap) (fuel : Nat) (n : Int) :
    readVal h fuel (.num n) = some (.num n) := by
  cases fuel <;> simp [readVal]

theorem readVal_str (h : Heap) (fuel : Nat) (s : String) :
    readVal h fuel (.str s) = some (.str s) := by
  cases fuel <;> simp [readVal]

theorem reachVal_num (h : Heap) (fuel : Nat) (n : Int) :
    reachVal h fuel (.num n) = [] := by
  cases fuel <;> simp [reachVal]

theorem reachVal_str (h : Heap) (fuel : Nat) (s : String) :
    reachVal h fuel (.str s) = [] := by
  cases fuel <;> simp [reachVal]

theorem readVal_ref_zero (h : Heap) (a : Nat) :
    readVal h 0 (.ref a) = none := by
  simp [readVal]

theorem reachVal_ref_of_lookup (h : Heap) (fuel a : Nat) (fs : JObj)
    (hha : h[a]? = some fs) :
    reachVal h (fuel + 1) (.ref a) = a :: reachFields h fuel fs := by
  simp only [reachVal, hha]
  rfl

theorem reachFields_nil (h : Heap) (fuel : Nat) :
    reachFields h fuel ([] : JObj) = [] := by
  simp [reachFields]

theorem reachFields_cons (h : Heap) (fuel : Nat) (k : String) (v : JVal)
    (fs : JObj) :
    reachFields h fuel ((k, v) :: fs) =
      reachVal h fuel v ++ reachFields h fuel fs := by
  simp [reachFields]

theorem mem_reachVal_ref_self (h : Heap) (fuel a : Nat) :
    a ∈ reachVal h fuel (.ref a) := by
  cases fuel with
  | zero => simp [reachVal]
  | succ f =>
      rcases hha : h[a]? with _ | fs <;> simp [reachVal, hha]

/-- Inversion of a successful reference read. -/
theorem readVal_ref_inv (h : Heap) (fuel a : Nat) (t : JTree)
    (hr : readVal h (fuel + 1) (.ref a) = some t) :
    ∃ fs ts, h[a]? = some fs ∧ readFields h fuel fs = some ts ∧
      t = .obj ts := by
  rw [readVal] at hr
  rcases hha : h[a]? with _ | fs
  · rw [hha] at hr
    exact absurd hr (by simp)
  · rw [hha, Option.some_bind] at hr
    rcases hfr : readFields h fuel fs with _ | ts
    · rw [hfr] at hr
      exact absurd hr (by simp)
    · rw [hfr] at hr
      simp only [Option.map_some', Option.some_inj] at hr
      exact ⟨fs, ts, rfl, hfr, hr.symm⟩

/-- Composition of a successful reference read. -/
theorem readVal_ref_mk (h : Heap) (fuel a : Nat) (fs : JObj)
    (ts : List (String × JTree)) (hha : h[a]? = some fs)
    (hfr : readFields h fuel fs = some ts) :
    readVal h (fuel + 1) (.ref a) = some (.obj ts) := by
  rw [readVal, hha, Option.some_bind, hfr]
  rfl

/-- Inversion of a successful field-list read. -/
theorem readFields_cons_inv (h : Heap) (fuel : Nat) (k : String) (v : JVal)
    (fs : JObj) (ts : List (String × JTree))
    (hr : readFields h fuel ((k, v) :: fs) = some ts) :
    ∃ t ts', readVal h fuel v = some t ∧ readFields h fuel fs = some ts' ∧
      ts = (k, t) :: ts' := by
  rw [readFields] at hr
  rcases hv : readVal h fuel v with _ | t
  · rw [hv] at hr
    exact absurd hr (by simp)
  · rw [hv, Option.some_bind] at hr
    rcases hf : readFields h fuel fs with _ | ts'
    · rw [hf] at hr
      exact absurd hr (by simp)
    · rw [hf] at hr
      simp only [Option.map_some', Option.some_inj] at hr
      exact ⟨t, ts', rfl, rfl, hr.symm⟩

/-- Composition of a successful field-list read. -/
theorem readFields_cons_mk (h : Heap) (fuel : Nat) (k : String) (v : JVal)
    (fs : JObj) (t : JTree) (ts' : List (String × JTree))
    (hv : readVal h fuel v = some t)
    (hf : readFields h fuel fs = some ts') :
    readFields h fuel ((k, v) :: fs) = some ((k, t) :: ts') := by
  rw [readFields, hv, Option.some_bind, hf]
  rfl

theorem readFields_nil_inv (h : Heap) (fuel : Nat)
    (ts : List (String × JTree)) (hr : readFields h fuel [] = some ts) :
    ts = [] := by
  rw [readFields] at hr
  simpa using hr.symm

theorem readFields_nil_eval (h : Heap) (fuel : Nat) :
    readFields h fuel [] = some [] := by
  rw [readFields]

/-- Fields version of `read_agree`, given the value version at the same
fuel. -/
theorem readFields_agree_of (fuel : Nat)
    (hval : ∀ (h h' : Heap) (v : JVal) (t : JTree), readVal h fuel v = some t →
      (∀ a ∈ reachVal h fuel v, h'[a]? = h[a]?) →
      readVal h' fuel v = some t ∧ reachVal h' fuel v = reachVal h fuel v) :
    ∀ (h h' : Heap) (fs : JObj) (ts : List (String × JTree)),
      readFields h fuel fs = some ts →
      (∀ a ∈ reachFields h fuel fs, h'[a]? = h[a]?) →
      readFields h' fuel fs = some ts ∧
        reachFields h' fuel fs = reachFields h fuel fs := by
  intro h h' fs
  induction fs with
  | nil =>
      intro ts hts _
      rw [readFields_nil_eval] at hts ⊢
      rw [reachFields_nil, reachFields_nil]
      exact ⟨hts, rfl⟩
  | cons kv fs ih =>
      intro ts hts hag
      rcases kv with ⟨k, v⟩
      rcases readFields_cons_inv h fuel k v fs ts hts with ⟨t, ts', hv, hf, hts'⟩
      have hagv : ∀ a ∈ reachVal h fuel v, h'[a]? = h[a]? := fun a ha =>
        hag a (by rw [reachFields_cons]; exact List.mem_append_left _ ha)
      have hagf : ∀ a ∈ reachFields h fuel fs, h'[a]? = h[a]? := fun a ha =>
        hag a (by rw [reachFields_cons]; exact List.mem_append_right _ ha)
      rcases hval h h' v t hv hagv with ⟨hv2, hvr⟩
      rcases ih ts' hf hagf with ⟨hf2, hfr⟩
      subst hts'
      exact ⟨readFields_cons_mk h' fuel k v fs t ts' hv2 hf2,
        by rw [reachFields_cons, reachFields_cons, hvr, hfr]⟩

/-- Reads and reachability only consult the heap at reached addresses:
a heap agreeing there yields the same tree and the same reach. -/
theorem read_agree : ∀ fuel : Nat,
    (∀ (h h' : Heap) (v : JVal) (t : JTree), readVal h fuel v = some t →
      (∀ a ∈ reachVal h fuel v, h'[a]? = h[a]?) →
      readVal h' fuel v = some t ∧
        reachVal h' fuel v = reachVal h fuel v) ∧
    (∀ (h h' : Heap) (fs : JObj) (ts : List (String × JTree)),
      readFields h fuel fs = some ts →
      (∀ a ∈ reachFields h fuel fs, h'[a]? = h[a]?) →
      readFields h' fuel fs = some ts ∧
        reachFields h' fuel fs = reachFields h fuel fs) := by
  intro fuel
  induction fuel with
  | zero =>
      have hval : ∀ (h h' : Heap) (v : JVal) (t : JTree),
          readVal h 0 v = some t →
          (∀ a ∈ reachVal h 0 v, h'[a]? = h[a]?) →
          readVal h' 0 v = some t ∧ reachVal h' 0 v = reachVal h 0 v := by
        intro h h' v t hr _
        cases v with
        | num n =>
            rw [readVal_num] at hr ⊢
            rw [reachVal_num, reachVal_num]
            exact ⟨hr, rfl⟩
        | str s =>
            rw [readVal_str] at hr ⊢
            rw [reachVal_str, reachVal_str]
            exact ⟨hr, rfl⟩
        | ref a =>
            rw [readVal_ref_zero] at hr
            exact absurd hr (by simp)
      exact ⟨hval, readFields_agree_of 0 hval⟩
  | succ f ihf =>
      have hval : ∀ (h h' : Heap) (v : JVal) (t : JTree),
          readVal h (f + 1) v = some t →
          (∀ a ∈ reachVal h (f + 1) v, h'[a]? = h[a]?) →
          readVal h' (f + 1) v = some t ∧
            reachVal h' (f + 1) v = reachVal h (f + 1) v := by
        intro h h' v t hr hag
        cases v with
        | num n =>
            rw [readVal_num] at hr ⊢
            rw [reachVal_num, reachVal_num]
            exact ⟨hr, rfl⟩
        | str s =>
            rw [readVal_str] at hr ⊢
            rw [reachVal_str, reachVal_str]
            exact ⟨hr, rfl⟩
        | ref a =>
            rcases readVal_ref_inv h f a t hr with ⟨fs, ts, hha, hfr, ht⟩
            have hreach := reachVal_ref_of_lookup h f a fs hha
            have haga : h'[a]? = h[a]? := hag a (by rw [hreach]; simp)
            have hagf : ∀ b ∈ reachFields h f fs, h'[b]? = h[b]? := fun b hb =>
              hag b (by rw [hreach]; simp [hb])
            rcases ihf.2 h h' fs ts hfr hagf with ⟨hf2, hfr2⟩
            subst ht
            refine ⟨readVal_ref_mk h' f a fs ts (by rw [haga, hha]) hf2, ?_⟩
            rw [hreach, reachVal_ref_of_lookup h' f a fs (by rw [haga, hha]),
              hfr2]
      exact ⟨hval, readFields_agree_of (f + 1) hval⟩

/-- Fields version of `read_valid`, given the value version at the same
fuel. -/
theorem readFields_valid_of (fuel : Nat)
    (hval : ∀ (h : Heap) (v : JVal) (t : JTree), readVal h fuel v = some t →
      ∀ a ∈ reachVal h fuel v, a < h.length) :
    ∀ (h : Heap) (fs : JObj) (ts : List (String × JTree)),
      readFields h fuel fs = some ts →
      ∀ a ∈ reachFields h fuel fs, a < h.length := by
  intro h fs
  induction fs with
  | nil =>
      intro ts _ a ha
      rw [reachFields_nil] at ha
      exact absurd ha (by simp)
  | cons kv fs ih =>
      intro ts hts a ha
      rcases kv with ⟨k, v⟩
      rcases readFields_cons_inv h fuel k v fs ts hts with ⟨t, ts', hv, hf, _⟩
      rw [reachFields_cons] at ha
      rcases List.mem_append.mp ha with hm | hm
      · exact hval h v t hv a hm
      · exact ih ts' hf a hm

/-- A successful read only reaches valid addresses. -/
theorem read_valid : ∀ fuel : Nat,
    (∀ (h : Heap) (v : JVal) (t : JTree), readVal h fuel v = some t →
      ∀ a ∈ reachVal h fuel v, a < h.length) ∧
    (∀ (h : Heap) (fs : JObj) (ts : List (String × JTree)),
      readFields h fuel fs = some ts →
      ∀ a ∈ reachFields h fuel fs, a < h.length) := by
  intro fuel
  induction fuel with
  | zero =>
      have hval : ∀ (h : Heap) (v : JVal) (t : JTree),
          readVal h 0 v = some t → ∀ a ∈ reachVal h 0 v, a < h.length := by
        intro h v t hr a ha
        cases v with
        | num n => rw [reachVal_num] at ha; exact absurd ha (by simp)
        | str s => rw [reachVal_str] at ha; exact absurd ha (by simp)
        | ref b => rw [readVal_ref_zero] at hr; exact absurd hr (by simp)
      exact ⟨hval, readFields_valid_of 0 hval⟩
  | succ f ihf =>
      have hval : ∀ (h : Heap) (v : JVal) (t : JTree),
          readVal h (f + 1) v = some t →
          ∀ a ∈ reachVal h (f + 1) v, a < h.length := by
        intro h v t hr a ha
        cases v with
        | num n => rw [reachVal_num] at ha; exact absurd ha (by simp)
        | str s => rw [reachVal_str] at ha; exact absurd ha (by simp)
        | ref b =>
            rcases readVal_ref_inv h f b t hr with ⟨fs, ts, hhb, hfr, _⟩
            rw [reachVal_ref_of_lookup h f b fs hhb] at ha
            rcases List.mem_cons.mp ha with hm | hm
            · subst hm
              exact (List.getElem?_eq_some.mp hhb).1
            · exact ihf.2 h fs ts hfr a hm
      exact ⟨hval, readFields_valid_of (f + 1) hval⟩

/-- Fields version of `read_depth`, given the value version at the same
fuel. -/
theorem readFields_depth_of (fuel : Nat)
    (hval : ∀ (h : Heap) (v : JVal) (t : JTree), readVal h fuel v = some t →
      depthT t ≤ fuel) :
    ∀ (h : Heap) (fs : JObj) (ts : List (String × JTree)),
      readFields h fuel fs = some ts → depthFs ts ≤ fuel := by
  intro h fs
  induction fs with
  | nil =>
      intro ts hts
      rw [readFields_nil_eval] at hts
      rw [← Option.some_inj.mp hts]
      simp [depthFs]
  | cons kv fs ih =>
      intro ts hts
      rcases kv with ⟨k, v⟩
      rcases readFields_cons_inv h fuel k v fs ts hts with ⟨t, ts', hv, hf, hts'⟩
      subst hts'
      rw [depthFs]
      exact max_le (hval h v t hv) (ih ts' hf)

/-- The tree a read returns is no deeper than the fuel spent. -/
theorem read_depth : ∀ fuel : Nat,
    (∀ (h : Heap) (v : JVal) (t : JTree), readVal h fuel v = some t →
      depthT t ≤ fuel) ∧
    (∀ (h : Heap) (fs : JObj) (ts : List (String × JTree)),
      readFields h fuel fs = some ts → depthFs ts ≤ fuel) := by
  intro fuel
  induction fuel with
  | zero =>
      have hval : ∀ (h : Heap) (v : JVal) (t : JTree),
          readVal h 0 v = some t → depthT t ≤ 0 := by
        intro h v t hr
        cases v with
        | num n =>
            rw [readVal_num, Option.some_inj] at hr
            rw [← hr]; simp [depthT]
        | str s =>
            rw [readVal_str, Option.some_inj] at hr
            rw [← hr]; simp [depthT]
        | ref a => rw [readVal_ref_zero] at hr; exact absurd hr (by simp)
      exact ⟨hval, readFields_depth_of 0 hval⟩
  | succ f ihf =>
      have hval : ∀ (h : Heap) (v : JVal) (t : JTree),
          readVal h (f + 1) v = some t → depthT t ≤ f + 1 := by
        intro h v t hr
        cases v with
        | num n =>
            rw [readVal_num, Option.some_inj] at hr
            rw [← hr]; simp [depthT]
        | str s =>
            rw [readVal_str, Option.some_inj] at hr
            rw [← hr]; simp [depthT]
        | ref a =>
            rcases readVal_ref_inv h f a t hr with ⟨fs, ts, hha, hfr, ht⟩
            subst ht
            rw [depthT]
            exact Nat.add_le_add_right (ihf.2 h fs ts hfr) 1
      exact ⟨hval, readFields_depth_of (f + 1) hval⟩

/-- Reads are stable under extending the heap with fresh objects. -/
theorem readVal_extend (h Δ : Heap) (fuel : Nat) (v : JVal) (t : JTree)
    (hr : readVal h fuel v = some t) :
    readVal (h ++ Δ) fuel v = some t ∧
      reachVal (h ++ Δ) fuel v = reachVal h fuel v :=
  (read_agree fuel).1 h (h ++ Δ) v t hr (fun a ha =>
    List.getElem?_append_left ((read_valid fuel).1 h v t hr a ha))

/-- Field reads are stable under extending the heap. -/
theorem readFields_extend (h Δ : Heap) (fuel : Nat) (fs : JObj)
    (ts : List (String × JTree)) (hr : readFields h fuel fs = some ts) :
    readFields (h ++ Δ) fuel fs = some ts ∧
      reachFields (h ++ Δ) fuel fs = reachFields h fuel fs :=
  (read_agree fuel).2 h (h ++ Δ) fs ts hr (fun a ha =>
    List.getElem?_append_left ((read_valid fuel).2 h fs ts hr a ha))

/-- A single mutation away from an address. -/
theorem heapSet_getElem_ne (h : Heap) (b : Nat) (k : String) (w : JVal)
    (a : Nat) (hab : a ≠ b) : (heapSet h b k w)[a]? = h[a]? := by
  rw [heapSet]
  rcases hb : h[b]? with _ | fs
  · rfl
  · exact List.getElem?_set_ne (Ne.symm hab)

/-- A single mutation at a valid address. -/
theorem heapSet_getElem_self (h : Heap) (b : Nat) (k : String) (w : JVal)
    (fs : JObj) (hb : h[b]? = some fs) :
    (heapSet h b k w)[b]? = some (setFieldV fs k w) := by
  rw [heapSet, hb]
  exact List.getElem?_set_self (List.getElem?_eq_some.mp hb).1

/-- Reads are stable under a mutation at an unreached address. -/
theorem readVal_frame (h : Heap) (b : Nat) (k : String) (w : JVal)
    (fuel : Nat) (v : JVal) (t : JTree) (hr : readVal h fuel v = some t)
    (hb : b ∉ reachVal h fuel v) :
    readVal (heapSet h b k w) fuel v = some t ∧
      reachVal (heapSet h b k w) fuel v = reachVal h fuel v :=
  (read_agree fuel).1 h (heapSet h b k w) v t hr (fun a ha =>
    heapSet_getElem_ne h b k w a (fun hab => hb (hab ▸ ha)))

/-- Field reads are stable under a mutation at an unreached address. -/
theorem readFields_frame (h : Heap) (b : Nat) (k : String) (w : JVal)
    (fuel : Nat) (fs : JObj) (ts : List (String × JTree))
    (hr : readFields h fuel fs = some ts)
    (hb : b ∉ reachFields h fuel fs) :
    readFields (heapSet h b k w) fuel fs = some ts ∧
      reachFields (heapSet h b k w) fuel fs = reachFields h fuel fs :=
  (read_agree fuel).2 h (heapSet h b k w) fs ts hr (fun a ha =>
    heapSet_getElem_ne h b k w a (fun hab => hb (hab ▸ ha)))

/-- `Object.assign` never touches other addresses. -/
theorem assignFields_getElem_ne (tgt a : Nat) (ha : a ≠ tgt) :
    ∀ (fvs : List (String × JVal)) (h : Heap),
      (assignFields h tgt fvs)[a]? = h[a]? := by
  intro fvs
  induction fvs with
  | nil => intro h; rfl
  | cons kv fvs ih =>
      intro h
      rcases kv with ⟨k, v⟩
      rw [assignFields, ih, heapSet_getElem_ne h tgt k v a ha]

/-- `Object.assign` folds the field assignments over the target's
object. -/
theorem assignFields_getElem_self (tgt : Nat) :
    ∀ (fvs : List (String × JVal)) (h : Heap) (o : JObj),
      h[tgt]? = some o →
      (assignFields h tgt fvs)[tgt]? =
        some (List.foldl (fun o kv => setFieldV o kv.1 kv.2) o fvs) := by
  intro fvs
  induction fvs with
  | nil => intro h o ho; rw [assignFields, List.foldl_nil]; exact ho
  | cons kv fvs ih =>
      intro h o ho
      rcases kv with ⟨k, v⟩
      rw [assignFields, List.foldl_cons,
        ih (heapSet h tgt k v) (setFieldV o k v)
          (heapSet_getElem_self h tgt k v o ho)]

/-- Reads away from the assignment target are stable under
`Object.assign`. -/
theorem readVal_assign_frame (tgt : Nat) (fvs : List (String × JVal))
    (h : Heap) (fuel : Nat) (v : JVal) (t : JTree)
    (hr : readVal h fuel v = some t) (hb : tgt ∉ reachVal h fuel v) :
    readVal (assignFields h tgt fvs) fuel v = some t ∧
      reachVal (assignFields h tgt fvs) fuel v = reachVal h fuel v :=
  (read_agree fuel).1 h (assignFields h tgt fvs) v t hr (fun a ha =>
    assignFields_getElem_ne tgt a (fun hab => hb (hab ▸ ha)) fvs h)

/-- Field reads away from the assignment target are stable under
`Object.assign`. -/
theorem readFields_assign_frame (tgt : Nat) (fvs : List (String × JVal))
    (h : Heap) (fuel : Nat) (fs : JObj) (ts : List (String × JTree))
    (hr : readFields h fuel fs = some ts)
    (hb : tgt ∉ reachFields h fuel fs) :
    readFields (assignFields h tgt fvs) fuel fs = some ts ∧
      reachFields (assignFields h tgt fvs) fuel fs =
        reachFields h fuel fs :=
  (read_agree fuel).2 h (assignFields h tgt fvs) fs ts hr (fun a ha =>
    assignFields_getElem_ne tgt a (fun hab => hb (hab ▸ ha)) fvs h)

/-- Specification of `allocFields` given the specification of the
member trees: the heap only grows, the fresh fields read back as the
given trees in any further extension, and the fresh fields only reach
fresh addresses. -/
theorem allocFields_spec_of (ts : List (String × JTree))
    (H : ∀ kt ∈ ts, ∀ h : Heap,
      (∃ Δ, (allocTree h kt.2).1 = h ++ Δ) ∧
      (∀ Δ' fuel, depthT kt.2 ≤ fuel →
        readVal ((allocTree h kt.2).1 ++ Δ') fuel (allocTree h kt.2).2 =
          some kt.2) ∧
      (∀ Δ' fuel a,
        a ∈ reachVal ((allocTree h kt.2).1 ++ Δ') fuel (allocTree h kt.2).2 →
        h.length ≤ a)) :
    ∀ h : Heap,
      (∃ Δ, (allocFields h ts).1 = h ++ Δ) ∧
      (∀ Δ' fuel, depthFs ts ≤ fuel →
        readFields ((allocFields h ts).1 ++ Δ') fuel (allocFields h ts).2 =
          some ts) ∧
      (∀ Δ' fuel a,
        a ∈ reachFields ((allocFields h ts).1 ++ Δ') fuel
          (allocFields h ts).2 →
        h.length ≤ a) := by
  induction ts with
  | nil =>
      intro h
      refine ⟨⟨[], by rw [allocFields, List.append_nil]⟩,
        fun Δ' fuel _ => ?_, fun Δ' fuel a ha => ?_⟩
      · rw [allocFields]
        exact readFields_nil_eval _ _
      · rw [allocFields] at ha
        rw [reachFields_nil] at ha
        exact absurd ha (by simp)
  | cons kt ts ih =>
      intro h
      rcases kt with ⟨k, t⟩
      have Ht := H (k, t) (by simp) h
      have ihs := ih (fun kt' hkt' => H kt' (by simp [hkt'])) (allocTree h t).1
      rcases Ht.1 with ⟨Δ₁, hΔ₁⟩
      rcases ihs.1 with ⟨Δ₂, hΔ₂⟩
      have hsplit : (allocFields h ((k, t) :: ts)).1 =
          (allocFields (allocTree h t).1 ts).1 := by
        rw [allocFields]
      have hsnd : (allocFields h ((k, t) :: ts)).2 =
          (k, (allocTree h t).2) :: (allocFields (allocTree h t).1 ts).2 := by
        rw [allocFields]
      refine ⟨⟨Δ₁ ++ Δ₂, by rw [hsplit, hΔ₂, hΔ₁, List.append_assoc]⟩,
        fun Δ' fuel hfu => ?_, fun Δ' fuel a ha => ?_⟩
      · rw [depthFs] at hfu
        rw [hsplit, hsnd]
        refine readFields_cons_mk _ fuel k _ _ t _ ?_ ?_
        · have := Ht.2.1 (Δ₂ ++ Δ') fuel (le_trans (le_max_left _ _) hfu)
          rwa [← List.append_assoc, ← hΔ₂] at this
        · exact ihs.2.1 Δ' fuel (le_trans (le_max_right _ _) hfu)
      · rw [hsplit, hsnd, reachFields_cons] at ha
        rcases List.mem_append.mp ha with hm | hm
        · refine Ht.2.2 (Δ₂ ++ Δ') fuel a ?_
          rwa [← List.append_assoc, ← hΔ₂]
        · have := ihs.2.2 Δ' fuel a hm
          rw [hΔ₁] at this
          calc h.length ≤ (h ++ Δ₁).length := by simp
            _ ≤ a := this

/-- Specification of `allocTree` (`JSON.parse` of a serialized tree):
the heap only grows, the fresh value reads back as the tree in any
further extension given fuel at least the tree's depth, and the fresh
value only reaches fresh addresses. -/
theorem allocTree_spec (t : JTree) :
    ∀ h : Heap,
      (∃ Δ, (allocTree h t).1 = h ++ Δ) ∧
      (∀ Δ' fuel, depthT t ≤ fuel →
        readVal ((allocTree h t).1 ++ Δ') fuel (allocTree h t).2 = some t) ∧
      (∀ Δ' fuel a,
        a ∈ reachVal ((allocTree h t).1 ++ Δ') fuel (allocTree h t).2 →
        h.length ≤ a) := by
  induction t using JTree.indOn with
  | hnum n =>
      intro h
      refine ⟨⟨[], by rw [allocTree, List.append_nil]⟩,
        fun Δ' fuel _ => ?_, fun Δ' fuel a ha => ?_⟩
      · rw [allocTree]
        exact readVal_num _ _ _
      · rw [allocTree] at ha
        rw [reachVal_num] at ha
        exact absurd ha (by simp)
  | hstr s =>
      intro h
      refine ⟨⟨[], by rw [allocTree, List.append_nil]⟩,
        fun Δ' fuel _ => ?_, fun Δ' fuel a ha => ?_⟩
      · rw [allocTree]
        exact readVal_str _ _ _
      · rw [allocTree] at ha
        rw [reachVal_str] at ha
        exact absurd ha (by simp)
  | hobj ts ihm =>
      intro h
      have ihs := allocFields_spec_of ts ihm h
      rcases ihs.1 with ⟨Δf, hΔf⟩
      have hfst : (allocTree h (.obj ts)).1 =
          (allocFields h ts).1 ++ [(allocFields h ts).2] := by
        rw [allocTree]
      have hsnd : (allocTree h (.obj ts)).2 =
          JVal.ref (allocFields h ts).1.length := by
        rw [allocTree]
      have hlook : ∀ Δ' : Heap,
          ((allocFields h ts).1 ++ [(allocFields h ts).2] ++ Δ')[(allocFields h ts).1.length]? = some (allocFields h ts).2 := by
        intro Δ'
        rw [List.append_assoc, List.getElem?_append_right (le_refl _),
          Nat.sub_self]
        simp
      refine ⟨⟨Δf ++ [(allocFields h ts).2],
          by rw [hfst, hΔf, List.append_assoc]⟩,
        fun Δ' fuel hfu => ?_, fun Δ' fuel a ha => ?_⟩
      · rw [depthT] at hfu
        rcases fuel with _ | g
        · omega
        rw [hfst, hsnd]
        refine readVal_ref_mk _ g _ _ ts (hlook Δ') ?_
        have := ihs.2.1 ([(allocFields h ts).2] ++ Δ') g (by omega)
        rwa [← List.append_assoc] at this
      · rw [hfst, hsnd] at ha
        rcases fuel with _ | g
        · rw [reachVal] at ha
          rcases List.mem_singleton.mp ha with rfl
          rw [hΔf]
          simp
        · rw [reachVal_ref_of_lookup _ g _ _ (hlook Δ')] at ha
          rcases List.mem_cons.mp ha with rfl | hm
          · rw [hΔf]; simp
          · have := ihs.2.2 ([(allocFields h ts).2] ++ Δ') g a
              (by rwa [List.append_assoc] at hm)
            exact this

/-- Specification of `allocFields`. -/
theorem allocFields_spec (ts : List (String × JTree)) (h : Heap) :
    (∃ Δ, (allocFields h ts).1 = h ++ Δ) ∧
    (∀ Δ' fuel, depthFs ts ≤ fuel →
      readFields ((allocFields h ts).1 ++ Δ') fuel (allocFields h ts).2 =
        some ts) ∧
    (∀ Δ' fuel a,
      a ∈ reachFields ((allocFields h ts).1 ++ Δ') fuel
        (allocFields h ts).2 →
      h.length ≤ a) :=
  allocFields_spec_of ts (fun kt _ h' => allocTree_spec kt.2 h') h

/-- The freshly allocated root object is found at its address. -/
theorem alloc_self_lookup (h : Heap) (ts : List (String × JTree)) :
    ((allocFields h ts).1 ++ [(allocFields h ts).2])[(allocFields h ts).1.length]? = some (allocFields h ts).2 := by
  rw [List.getElem?_append_right (le_refl _), Nat.sub_self]
  simp

/-- Reading an object after one field assignment. -/
theorem readFields_setFieldV (h : Heap) (G : Nat) :
    ∀ (o : JObj) (ot : List (String × JTree)) (k : String) (v : JVal)
      (t : JTree),
      readFields h G o = some ot → readVal h G v = some t →
      readFields h G (setFieldV o k v) = some (setFieldT ot k t) := by
  intro o
  induction o with
  | nil =>
      intro ot k v t ho hv
      have := readFields_nil_inv h G ot ho
      subst this
      rw [setFieldV, setFieldT]
      exact readFields_cons_mk h G k v [] t [] hv (readFields_nil_eval h G)
  | cons kw o ih =>
      intro ot k v t ho hv
      rcases kw with ⟨k', w⟩
      rcases readFields_cons_inv h G k' w o ot ho with ⟨u, ot', hw, ho', hot⟩
      subst hot
      rw [setFieldV, setFieldT]
      by_cases hk : k' = k
      · rw [if_pos hk, if_pos hk]
        exact readFields_cons_mk h G k v o t ot' hv ho'
      · rw [if_neg hk, if_neg hk]
        exact readFields_cons_mk h G k' w _ u _ hw (ih ot' k v t ho' hv)

/-- Reading an object after `Object.assign` of read-back fields. -/
theorem readFields_foldSet (h : Heap) (G : Nat) :
    ∀ (fvs : List (String × JVal)) (ivs : List (String × JTree)) (o : JObj)
      (ot : List (String × JTree)),
      readFields h G fvs = some ivs → readFields h G o = some ot →
      readFields h G (List.foldl (fun o kv => setFieldV o kv.1 kv.2) o fvs) =
        some (List.foldl (fun ot kt => setFieldT ot kt.1 kt.2) ot ivs) := by
  intro fvs
  induction fvs with
  | nil =>
      intro ivs o ot hf ho
      have := readFields_nil_inv h G ivs hf
      subst this
      rw [List.foldl_nil, List.foldl_nil]
      exact ho
  | cons kv fvs ih =>
      intro ivs o ot hf ho
      rcases kv with ⟨k, v⟩
      rcases readFields_cons_inv h G k v fvs ivs hf with ⟨t, ivs', hv, hf', hivs⟩
      subst hivs
      rw [List.foldl_cons, List.foldl_cons]
      exact ih ivs' (setFieldV o k v) (setFieldT ot k t) hf'
        (readFields_setFieldV h G o ot k v t ho hv)

/-- An address reached after one field assignment was reached through
the old object or through the assigned value. -/
theorem mem_reachFields_setFieldV (h : Heap) (G : Nat) :
    ∀ (o : JObj) (k : String) (v : JVal) (a : Nat),
      a ∈ reachFields h G (setFieldV o k v) →
      a ∈ reachFields h G o ∨ a ∈ reachVal h G v := by
  intro o
  induction o with
  | nil =>
      intro k v a ha
      rw [setFieldV, reachFields_cons, reachFields_nil,
        List.append_nil] at ha
      exact Or.inr ha
  | cons kw o ih =>
      intro k v a ha
      rcases kw with ⟨k', w⟩
      rw [setFieldV] at ha
      by_cases hk : k' = k
      · rw [if_pos hk, reachFields_cons] at ha
        rcases List.mem_append.mp ha with hm | hm
        · exact Or.inr hm
        · exact Or.inl (by rw [reachFields_cons]; exact List.mem_append_right _ hm)
      · rw [if_neg hk, reachFields_cons] at ha
        rcases List.mem_append.mp ha with hm | hm
        · exact Or.inl (by rw [reachFields_cons]; exact List.mem_append_left _ hm)
        · rcases ih k v a hm with hm' | hm'
          · exact Or.inl
              (by rw [reachFields_cons]; exact List.mem_append_right _ hm')
          · exact Or.inr hm'

/-- An address reached after `Object.assign` was reached through the
old object or through the source fields. -/
theorem mem_reachFields_foldSet (h : Heap) (G : Nat) :
    ∀ (fvs : List (String × JVal)) (o : JObj) (a : Nat),
      a ∈ reachFields h G (List.foldl (fun o kv => setFieldV o kv.1 kv.2) o fvs) →
      a ∈ reachFields h G o ∨ a ∈ reachFields h G fvs := by
  intro fvs
  induction fvs with
  | nil =>
      intro o a ha
      rw [List.foldl_nil] at ha
      exact Or.inl ha
  | cons kv fvs ih =>
      intro o a ha
      rcases kv with ⟨k, v⟩
      rw [List.foldl_cons] at ha
      rcases ih (setFieldV o k v) a ha with hm | hm
      · rcases mem_reachFields_setFieldV h G o k v a hm with hm' | hm'
        · exact Or.inl hm'
        · exact Or.inr
            (by rw [reachFields_cons]; exact List.mem_append_left _ hm')
      · exact Or.inr
          (by rw [reachFields_cons]; exact List.mem_append_right _ hm)

/-- Unfolding of `noteOp` on a successfully serialized object input. -/
theorem noteOp_eq (h : Heap) (F na : Nat) (input : JVal)
    (ts : List (String × JTree))
    (hin : readVal h F input = some (.obj ts)) :
    noteOp h F na input =
      some (assignFields ((allocFields h ts).1 ++ [(allocFields h ts).2]) na
        (allocFields h ts).2) := by
  rw [noteOp, hin]
  simp only [allocTree]
  rw [alloc_self_lookup h ts]

/-- Unfolding of `infoNotes` on a readable notes object. -/
theorem infoNotes_eq (h : Heap) (F na : Nat) (t : JTree)
    (hr : readVal h F (.ref na) = some t) :
    infoNotes h F na = some (allocTree h t) := by
  rw [infoNotes, hr]

/-- **C10.** `note(m)` deep-merges the serialized input into the stored
notes object, overwriting on key collision (`Object.assign` of the
`JSON.parse(JSON.stringify(m))` copy): the notes object afterwards reads
back as `mergeFields noteT inT`.  Both directions of independence hold:
mutating any object reachable from the caller's input after `note` does
not change what the notes read back as, and `info()` returns a fresh
deep copy reading back as the same merged tree whose mutation leaves a
later read of the stored notes unchanged. -/
theorem c10_notes_deep_copy (h : Heap) (G na : Nat) (nf : JObj)
    (noteT inT : List (String × JTree)) (input : JVal)
    (hnaobj : h[na]? = some nf)
    (hnaf : readFields h G nf = some noteT)
    (hacyc : na ∉ reachFields h G nf)
    (hin : readVal h (G + 1) input = some (.obj inT))
    (hdisj : ∀ a ∈ reachVal h (G + 1) input,
      a ∉ reachVal h (G + 1) (.ref na)) :
    ∃ h1, noteOp h (G + 1) na input = some h1 ∧
      readVal h1 (G + 1) (.ref na) =
        some (.obj (mergeFields noteT inT)) ∧
      (∀ a k w, a ∈ reachVal h (G + 1) input →
        readVal (heapSet h1 a k w) (G + 1) (.ref na) =
          readVal h1 (G + 1) (.ref na)) ∧
      ∃ h2 out, infoNotes h1 (G + 1) na = some (h2, out) ∧
        readVal h2 (G + 1) out = some (.obj (mergeFields noteT inT)) ∧
        ∀ a k w, a ∈ reachVal h2 (G + 1) out →
          readVal (heapSet h2 a k w) (G + 1) (.ref na) =
            readVal h2 (G + 1) (.ref na) := by
  have hnote := noteOp_eq h (G + 1) na input inT hin
  have hAspec := allocFields_spec inT h
  rcases hAspec.1 with ⟨Δf, hΔf⟩
  have hna_lt : na < h.length := (List.getElem?_eq_some.mp hnaobj).1
  have hΔh : (allocFields h inT).1 ++ [(allocFields h inT).2] =
      h ++ (Δf ++ [(allocFields h inT).2]) := by
    rw [hΔf, List.append_assoc]
  have hH2na : ((allocFields h inT).1 ++ [(allocFields h inT).2])[na]? =
      some nf := by
    rw [hΔh, List.getElem?_append_left hna_lt, hnaobj]
  have h1na : (assignFields
        ((allocFields h inT).1 ++ [(allocFields h inT).2]) na
        (allocFields h inT).2)[na]? =
      some (List.foldl (fun o kv => setFieldV o kv.1 kv.2) nf
        (allocFields h inT).2) :=
    assignFields_getElem_self na (allocFields h inT).2 _ nf hH2na
  have hdep : depthFs inT ≤ G := by
    have hd := (read_depth (G + 1)).1 h input (.obj inT) hin
    rw [depthT] at hd
    omega
  have hnfH2 : readFields
        ((allocFields h inT).1 ++ [(allocFields h inT).2]) G nf =
        some noteT ∧
      reachFields ((allocFields h inT).1 ++ [(allocFields h inT).2]) G nf =
        reachFields h G nf := by
    have := readFields_extend h (Δf ++ [(allocFields h inT).2]) G nf noteT
      hnaf
    rwa [← hΔh] at this
  have hread2 : readFields
        ((allocFields h inT).1 ++ [(allocFields h inT).2]) G
        (allocFields h inT).2 = some inT :=
    hAspec.2.1 [(allocFields h inT).2] G hdep
  have hreach2 : ∀ a,
      a ∈ reachFields ((allocFields h inT).1 ++ [(allocFields h inT).2]) G
        (allocFields h inT).2 → h.length ≤ a :=
    fun a ha => hAspec.2.2 [(allocFields h inT).2] G a ha
  have hnfh1 := readFields_assign_frame na (allocFields h inT).2
    ((allocFields h inT).1 ++ [(allocFields h inT).2]) G nf noteT hnfH2.1
    (by rw [hnfH2.2]; exact hacyc)
  have hfvh1 := readFields_assign_frame na (allocFields h inT).2
    ((allocFields h inT).1 ++ [(allocFields h inT).2]) G
    (allocFields h inT).2 inT hread2
    (fun hmem => absurd (hreach2 na hmem) (by omega))
  have hmerge : readFields
        (assignFields ((allocFields h inT).1 ++ [(allocFields h inT).2]) na
          (allocFields h inT).2) G
        (List.foldl (fun o kv => setFieldV o kv.1 kv.2) nf
          (allocFields h inT).2) =
      some (List.foldl (fun ot kt => setFieldT ot kt.1 kt.2) noteT inT) :=
    readFields_foldSet _ G (allocFields h inT).2 inT nf noteT hfvh1.1
      hnfh1.1
  have hreadna : readVal
        (assignFields ((allocFields h inT).1 ++ [(allocFields h inT).2]) na
          (allocFields h inT).2) (G + 1) (.ref na) =
      some (.obj (mergeFields noteT inT)) := by
    rw [mergeFields]
    exact readVal_ref_mk _ G na _ _ h1na hmerge
  have hmutin : ∀ a k w, a ∈ reachVal h (G + 1) input →
      readVal (heapSet
          (assignFields ((allocFields h inT).1 ++ [(allocFields h inT).2])
            na (allocFields h inT).2) a k w) (G + 1) (.ref na) =
        readVal
          (assignFields ((allocFields h inT).1 ++ [(allocFields h inT).2])
            na (allocFields h inT).2) (G + 1) (.ref na) := by
    intro a k w ha
    have hnm : a ∉ reachVal
        (assignFields ((allocFields h inT).1 ++ [(allocFields h inT).2]) na
          (allocFields h inT).2) (G + 1) (.ref na) := by
      rw [reachVal_ref_of_lookup _ G na _ h1na]
      intro hmem
      rcases List.mem_cons.mp hmem with hmem | hmem
      · exact hdisj a ha (hmem ▸ mem_reachVal_ref_self h (G + 1) na)
      · rcases mem_reachFields_foldSet _ G (allocFields h inT).2 nf a hmem
          with hm | hm
        · rw [hnfh1.2, hnfH2.2] at hm
          refine hdisj a ha ?_
          rw [reachVal_ref_of_lookup h G na nf hnaobj]
          exact List.mem_cons_of_mem na hm
        · rw [hfvh1.2] at hm
          have hge := hreach2 a hm
          have hlt := (read_valid (G + 1)).1 h input (.obj inT) hin a ha
          omega
    rw [(readVal_frame _ a k w (G + 1) (.ref na) _ hreadna hnm).1, hreadna]
  have hinfo := infoNotes_eq
    (assignFields ((allocFields h inT).1 ++ [(allocFields h inT).2]) na
      (allocFields h inT).2) (G + 1) na (.obj (mergeFields noteT inT))
    hreadna
  have hT := allocTree_spec (.obj (mergeFields noteT inT))
    (assignFields ((allocFields h inT).1 ++ [(allocFields h inT).2]) na
      (allocFields h inT).2)
  rcases hT.1 with ⟨Δ2, hΔ2⟩
  have hdep2 : depthT (.obj (mergeFields noteT inT)) ≤ G + 1 :=
    (read_depth (G + 1)).1 _ (.ref na) _ hreadna
  have hout : readVal
        (allocTree
          (assignFields ((allocFields h inT).1 ++ [(allocFields h inT).2])
            na (allocFields h inT).2) (.obj (mergeFields noteT inT))).1
        (G + 1)
        (allocTree
          (assignFields ((allocFields h inT).1 ++ [(allocFields h inT).2])
            na (allocFields h inT).2) (.obj (mergeFields noteT inT))).2 =
      some (.obj (mergeFields noteT inT)) := by
    have := hT.2.1 [] (G + 1) hdep2
    rwa [List.append_nil] at this
  have houtreach : ∀ a,
      a ∈ reachVal
        (allocTree
          (assignFields ((allocFields h inT).1 ++ [(allocFields h inT).2])
            na (allocFields h inT).2) (.obj (mergeFields noteT inT))).1
        (G + 1)
        (allocTree
          (assignFields ((allocFields h inT).1 ++ [(allocFields h inT).2])
            na (allocFields h inT).2) (.obj (mergeFields noteT inT))).2 →
      (assignFields ((allocFields h inT).1 ++ [(allocFields h inT).2]) na
        (allocFields h inT).2).length ≤ a := by
    intro a ha
    refine hT.2.2 [] (G + 1) a ?_
    rwa [List.append_nil]
  have hna2 : readVal
        (allocTree
          (assignFields ((allocFields h inT).1 ++ [(allocFields h inT).2])
            na (allocFields h inT).2) (.obj (mergeFields noteT inT))).1
        (G + 1) (.ref na) = some (.obj (mergeFields noteT inT)) ∧
      reachVal
        (allocTree
          (assignFields ((allocFields h inT).1 ++ [(allocFields h inT).2])
            na (allocFields h inT).2) (.obj (mergeFields noteT inT))).1
        (G + 1) (.ref na) =
      reachVal
        (assignFields ((allocFields h inT).1 ++ [(allocFields h inT).2])
          na (allocFields h inT).2) (G + 1) (.ref na) := by
    have := readVal_extend _ Δ2 (G + 1) (.ref na) _ hreadna
    rwa [← hΔ2] at this
  refine ⟨_, hnote, hreadna, hmutin, _, _, by rw [hinfo], hout, ?_⟩
  intro a k w ha
  have hnm : a ∉ reachVal
      (allocTree
        (assignFields ((allocFields h inT).1 ++ [(allocFields h inT).2])
          na (allocFields h inT).2) (.obj (mergeFields noteT inT))).1
      (G + 1) (.ref na) := by
    rw [hna2.2]
    intro hmem
    have hlt := (read_valid (G + 1)).1 _ (.ref na) _ hreadna a hmem
    have hge := houtreach a ha
    omega
  rw [(readVal_frame _ a k w (G + 1) (.ref na) _ hna2.1 hnm).1, hna2.1]

theorem c10_notes_deep_copy_witness :
    ∃ h1, noteOp [[("a", JVal.num 1)], [("a", JVal.num 2), ("b", JVal.num 3)]]
        2 0 (JVal.ref 1) = some h1 ∧
      readVal h1 2 (.ref 0) =
        some (.obj (mergeFields [("a", JTree.num 1)]
          [("a", JTree.num 2), ("b", JTree.num 3)])) ∧
      (∀ a k w,
        a ∈ reachVal [[("a", JVal.num 1)],
          [("a", JVal.num 2), ("b", JVal.num 3)]] 2 (JVal.ref 1) →
        readVal (heapSet h1 a k w) 2 (.ref 0) = readVal h1 2 (.ref 0)) ∧
      ∃ h2 out, infoNotes h1 2 0 = some (h2, out) ∧
        readVal h2 2 out =
          some (.obj (mergeFields [("a", JTree.num 1)]
            [("a", JTree.num 2), ("b", JTree.num 3)])) ∧
        ∀ a k w, a ∈ reachVal h2 2 out →
          readVal (heapSet h2 a k w) 2 (.ref 0) = readVal h2 2 (.ref 0) :=
  c10_notes_deep_copy
    [[("a", JVal.num 1)], [("a", JVal.num 2), ("b", JVal.num 3)]] 1 0
    [("a", JVal.num 1)] [("a", JTree.num 1)]
    [("a", JTree.num 2), ("b", JTree.num 3)] (JVal.ref 1)
    (by rfl)
    (readFields_cons_mk _ 1 "a" (JVal.num 1) [] (JTree.num 1) []
      (readVal_num _ 1 1) (readFields_nil_eval _ 1))
    (by rw [reachFields_cons, reachVal_num, reachFields_nil]; simp)
    (readVal_ref_mk _ 1 1 [("a", JVal.num 2), ("b", JVal.num 3)]
      [("a", JTree.num 2), ("b", JTree.num 3)] (by rfl)
      (readFields_cons_mk _ 1 "a" (JVal.num 2) [("b", JVal.num 3)]
        (JTree.num 2) [("b", JTree.num 3)] (readVal_num _ 1 2)
        (readFields_cons_mk _ 1 "b" (JVal.num 3) [] (JTree.num 3) []
          (readVal_num _ 1 3) (readFields_nil_eval _ 1))))
    (by
      intro a ha
      rw [reachVal_ref_of_lookup _ 1 1
          [("a", JVal.num 2), ("b", JVal.num 3)] (by rfl),
        reachFields_cons, reachVal_num, reachFields_cons, reachVal_num,
        reachFields_nil] at ha
      rw [reachVal_ref_of_lookup _ 1 0 [("a", JVal.num 1)] (by rfl),
        reachFields_cons, reachVal_num, reachFields_nil]
      simp at ha ⊢
      omega)
